import Mathlib

/-!
# Verification of the Speleo cave-traversal program

Shallow embedding of `src/Speleo/src/main.cpp` (a site-percolation
simulator): the grid model (`Region`, `Map`), the stack-based traversal
`Speleo::AttemptCaveTraverse`, the random map generator
`Speleo::GenerateMap`, the sampling loop (`Run`, case B) and the
probability sweep (`Run`, case C).

Machine `double` values are modelled exactly as rationals together with an
explicit round-to-nearest-even function at 53 significand bits
(`roundDouble`), which reproduces IEEE-754 binary64 arithmetic for the
positive normal-range values this program manipulates.

The traversal is embedded as a fuel-indexed state-transition function; the
state carries, besides the program's own data (grid, stack, success
counter), ghost event traces (`seedTrace`, `pushTrace`, `popTrace`) that
record the coordinates of every push and pop without influencing control
flow, so that trace properties (each cell pushed at most once, etc.) can be
stated.
-/

/-- A cell of the cave, mirroring `struct Region`: coordinates `y`, `x`,
an `obstructed` flag fixed at creation and a mutable `discovered` flag,
initially `false`. -/
structure Region where
  y : Nat
  x : Nat
  obstructed : Bool
  discovered : Bool
deriving DecidableEq, Repr

/-- `Region::IsAccessible`: `not obstructed`. -/
def Region.IsAccessible (r : Region) : Bool := !r.obstructed

/-- `Region::IsUnknown`: `not discovered`. -/
def Region.IsUnknown (r : Region) : Bool := !r.discovered

/-- The cave map, mirroring `std::vector<std::vector<Region>>` inside
`struct Map` (row-major: outer index `y`, inner index `x`). -/
abbrev Cave := List (List Region)

/-- The default cell returned by out-of-range reads; the traversal only
reads in-range cells, so its value never matters. It is obstructed and
discovered so that out-of-range reads can never be scouted. -/
def dummyRegion : Region := ⟨0, 0, true, true⟩

/-- Read `cave[y][x]`. -/
def getCell (cave : Cave) (y x : Nat) : Region :=
  (cave.getD y []).getD x dummyRegion

/-- `region.discovered = true` applied to the canonical grid cell
`cave[y][x]` (the write performed by `ScoutRegion` through its reference
argument). -/
def markDiscovered (cave : Cave) (y x : Nat) : Cave :=
  cave.set y ((cave.getD y []).set x { getCell cave y x with discovered := true })

/-- The traversal state of `Speleo::AttemptCaveTraverse`:
`n` is `cave.size`, `modeA` is `exec_mode == A`, `stack` is
`regions_to_scout` (head = top), `successes` is the number of times this
traversal incremented `successful_attempts`, `done` records that the
`break` statement fired.  `seedTrace`, `pushTrace` and `popTrace` are ghost
fields recording coordinates of entry-seeding pushes, in-loop `ScoutRegion`
pushes, and pops; they never influence control flow. -/
structure TState where
  n : Nat
  modeA : Bool
  cave : Cave
  stack : List Region
  successes : Nat
  done : Bool
  seedTrace : List (Nat × Nat)
  pushTrace : List (Nat × Nat)
  popTrace : List (Nat × Nat)
deriving Repr

/-- The lambda `ScoutRegion` applied to the canonical grid cell
`cave[y][x]`: if the cell is accessible and unknown, mark it discovered in
the grid and push (a copy of) it, with `discovered = true`, onto the
stack.  The push is also recorded in the ghost `pushTrace`. -/
def scout (s : TState) (y x : Nat) : TState :=
  let r := getCell s.cave y x
  if r.IsAccessible && r.IsUnknown then
    { s with
      cave := markDiscovered s.cave y x
      stack := { r with discovered := true } :: s.stack
      pushTrace := (y, x) :: s.pushTrace }
  else s

/-- A bounds-guarded `ScoutRegion` call (`if(guard) ScoutRegion(...)`). -/
def scoutIf (c : Prop) [Decidable c] (s : TState) (y x : Nat) : TState :=
  if c then scout s y x else s

/-- The four neighbour scouts of one loop iteration, in source order:
NORTH (`y-1 ≥ 0`), EAST (`x+1 < cave.size`), WEST (`x-1 ≥ 0`),
SOUTH (`y+1 < cave.size`). -/
def expand (s : TState) (y x : Nat) : TState :=
  scoutIf (y + 1 < s.n)
    (scoutIf (1 ≤ x)
      (scoutIf (x + 1 < s.n)
        (scoutIf (1 ≤ y) s (y - 1) x)
        y (x + 1))
      y (x - 1))
    (y + 1) x

/-- Pop the top region (coordinates `(y, x)`, remaining stack `rest`),
record the pop in the ghost `popTrace`, and scout the four neighbours. -/
def popThen (s : TState) (y x : Nat) (rest : List Region) : TState :=
  expand { s with stack := rest, popTrace := (y, x) :: s.popTrace } y x

/-- One `while(!regions_to_scout.empty())` loop of
`Speleo::AttemptCaveTraverse`, fuel-indexed.  Each iteration reads the top
of the stack; if its row is the bottom row, `successful_attempts` is
incremented and, outside mode A, the `break` fires (recorded in `done`,
with the region still on the stack); otherwise the region is popped
(recorded in the ghost `popTrace`) and its four neighbours are scouted. -/
def loop : Nat → TState → TState
  | 0, s => s
  | fuel + 1, s =>
    match s.stack with
    | [] => s
    | region :: rest =>
      let y := region.y
      let x := region.x
      if y + 1 = s.n then
        if !s.modeA then { s with successes := s.successes + 1, done := true }
        else loop fuel (popThen { s with successes := s.successes + 1 } y x rest)
      else loop fuel (popThen s y x rest)

/-- The entry-seeding loop `for(auto region : cave[ENTRY]) ScoutRegion(region);`.
`auto region` iterates over *copies* of the row-0 cells, so `ScoutRegion`
marks and pushes the copy and the canonical grid is not written.  Returns
the resulting stack (head = top; cells pushed left to right, so the
rightmost accessible cell ends on top) together with the ghost trace of
seeded coordinates in push order. -/
def seedEntries (row0 : List Region) : List Region × List (Nat × Nat) :=
  row0.foldl
    (fun acc r =>
      if r.IsAccessible && r.IsUnknown then
        ({ r with discovered := true } :: acc.1, acc.2 ++ [(r.y, r.x)])
      else acc)
    ([], [])

/-- The traversal state right after entry seeding, before the while loop. -/
def initState (n : Nat) (modeA : Bool) (cave : Cave) : TState :=
  { n := n
    modeA := modeA
    cave := cave
    stack := (seedEntries (cave.getD 0 [])).1
    successes := 0
    done := false
    seedTrace := (seedEntries (cave.getD 0 [])).2
    pushTrace := []
    popTrace := [] }

/-- Number of undiscovered cells of the grid. -/
def undiscoveredCount (cave : Cave) : Nat :=
  (cave.map fun row => (row.filter fun r => !r.discovered).length).sum

/-- Termination measure for the loop: each iteration pops one region and
every push marks a previously undiscovered cell. -/
def stateMeasure (s : TState) : Nat :=
  s.stack.length + 2 * undiscoveredCount s.cave

/-- `Speleo::AttemptCaveTraverse` on a grid of size `n`, in mode A
(`modeA = true`) or any other mode, starting from a zero success count.
The fuel `stateMeasure + 1` is proved sufficient below. -/
def attemptCaveTraverse (n : Nat) (modeA : Bool) (cave : Cave) : TState :=
  loop (stateMeasure (initState n modeA cave) + 1) (initState n modeA cave)

/-- An `n × n` grid whose cell `(y, x)` is obstructed iff `obst y x`, all
cells undiscovered — the shape produced by both `ReadMapFromConsole` and
`GenerateMap`. -/
def mkGrid (n : Nat) (obst : Nat → Nat → Bool) : Cave :=
  (List.range n).map fun y =>
    (List.range n).map fun x => ⟨y, x, obst y x, false⟩

section FloatModel

/-!
Machine `double` values are modelled exactly: a value is a dyadic rational
`m / 2 ^ e` (`Dy`), and each arithmetic operation rounds its exact result
to 53 significand bits, round-to-nearest ties-to-even — the IEEE-754
binary64 behaviour for the nonnegative normal-range values this program
computes with (no overflow, no subnormals, no negative values arise).
All arithmetic is on `Int`/`Nat` so that every operation reduces in the
kernel.
-/

/-- A dyadic rational `m / 2 ^ e`, the exact value of a binary64 number. -/
structure Dy where
  m : ℤ
  e : Nat
deriving DecidableEq, Repr

/-- The exact rational value of a dyadic. -/
def Dy.toRat (d : Dy) : ℚ := mkRat d.m (2 ^ d.e)

/-- Bit length of a natural number (fuel-indexed so that it reduces in the
kernel); 4096 bits of fuel covers every value arising here. -/
def nbitsAux : Nat → Nat → Nat
  | 0, _ => 0
  | fuel + 1, m => if m = 0 then 0 else nbitsAux fuel (m / 2) + 1

/-- Bit length of a natural number. -/
def nbits (m : Nat) : Nat := nbitsAux 4096 m

/-- Round the nonnegative integer `M` at `sh` low bits: nearest multiple
of `2 ^ sh`, ties to even, returned divided by `2 ^ sh`. -/
def rneShift (M : Nat) (sh : Nat) : Nat :=
  let q := M / 2 ^ sh
  let r := M % 2 ^ sh
  let half := 2 ^ sh / 2
  if r < half then q
  else if half < r then q + 1
  else if q % 2 = 0 then q else q + 1

/-- Round the exact dyadic `M / 2 ^ E`, `M ≥ 0`, to a 53-bit significand
(binary64 round-to-nearest, ties to even, for the nonnegative normal
range).  Values already representable are returned unchanged. -/
def rne53 (M : ℤ) (E : Nat) : Dy :=
  let k := nbits M.toNat
  if k ≤ 53 then ⟨M, E⟩
  else
    let sh := k - 53
    let q : ℤ := (rneShift M.toNat sh : ℤ)
    if sh ≤ E then ⟨q, E - sh⟩ else ⟨q * 2 ^ (sh - E), 0⟩

/-- Binary64 addition: exact dyadic sum, then rounding. -/
def Dy.add (a b : Dy) : Dy :=
  rne53 (a.m * 2 ^ (max a.e b.e - a.e) + b.m * 2 ^ (max a.e b.e - b.e))
    (max a.e b.e)

/-- Binary64 subtraction `a - b` (used only where the exact difference is
nonnegative, as in this program). -/
def Dy.sub (a b : Dy) : Dy := Dy.add a ⟨-b.m, b.e⟩

/-- Exact comparison `a ≤ b` of two binary64 values. -/
def Dy.le (a b : Dy) : Bool := decide (a.m * 2 ^ b.e ≤ b.m * 2 ^ a.e)

/-- The binary64 nearest to the positive rational `a / b` (exact
round-to-nearest-even for values `≥ 2⁻²⁴⁰`, which amply covers the
magnitudes this program produces): the exponent is located exactly by bit
length and the 53-bit significand is rounded from the exact integer
quotient and remainder. -/
def doubleOfPosRat (a b : Nat) : Dy :=
  let e : ℤ := (nbits (a * 2 ^ 240 / b) : ℤ) - 1 - 240
  let n := if 0 ≤ 52 - e then a * 2 ^ (52 - e).toNat else a
  let d := if 0 ≤ 52 - e then b else b * 2 ^ (e - 52).toNat
  let q := n / d
  let r := n % d
  let m := if 2 * r < d then q else if d < 2 * r then q + 1
           else if q % 2 = 0 then q else q + 1
  if 0 ≤ 52 - e then ⟨(m : ℤ), (52 - e).toNat⟩ else ⟨(m : ℤ) * 2 ^ (e - 52).toNat, 0⟩

/-- The `double` literal `0.01` (the binary64 nearest to 1/100). -/
def centi : Dy := doubleOfPosRat 1 100

/-- The `double` literal `1.0`. -/
def oneDy : Dy := ⟨1, 0⟩

end FloatModel

/-- Model of one draw of `std::bernoulli_distribution B(p)` from the
shared engine: given the engine's uniform variate `u ∈ [0,1)` for this
draw, the result is `true` exactly when `u < p` (so `true` with
probability `p`). -/
def bernouilli (p : ℚ) (u : ℚ) : Bool := decide (u < p)

/-- `Speleo::GenerateMap`: an `n × n` grid whose cell `(y, x)` is
obstructed iff `Bernouilli(1 - accessibility)` returns true, where
`1 - accessibility` is the binary64 difference (`accessibility` is a
`double`) and the draw for cell `(y, x)` consumes the uniform variate
`u (y * n + x)` (row-major generation order). -/
def generateMap (n : Nat) (p : Dy) (u : Nat → ℚ) : Cave :=
  mkGrid n fun y x => bernouilli (Dy.sub oneDy p).toRat (u (y * n + x))

/-- `Speleo::Run`, case B: the per-sample success count contributed by one
`AttemptCaveTraverse` on a freshly generated map (`successful_attempts` is
incremented inside the traversal; `ResetMap` then discards the grid). -/
def trialSuccesses (n : Nat) (p : Dy) (u : Nat → ℚ) : Nat :=
  (attemptCaveTraverse n false (generateMap n p u)).successes

/-- `Speleo::Run`, case B: `sampleSize` independent samples, each on a
fresh `GenerateMap` grid (sample `i` consumes the `n²` uniform variates
`u (i * n² + j)`), accumulating `successful_attempts`; the reported
empirical probability is `successful_attempts / sample_size` (printed as
`double(successful_attempts)/sample_size`).  Returns the final counter
together with that ratio. -/
def runModeB (n : Nat) (p : Dy) (sampleSize : Nat) (u : Nat → ℚ) : Nat × ℚ :=
  let successes :=
    (List.range sampleSize).foldl
      (fun acc sample => acc + trialSuccesses n p (fun j => u (sample * (n * n) + j)))
      0
  (successes, mkRat successes sampleSize)

/-- The sequence of `accessibility` values visited by the mode-C loop
`for(accessibility = 0.0; accessibility <= 1.0; accessibility += 0.01)`,
computed in binary64: collect `p` while `p ≤ 1.0`, stepping by the
binary64 addition of the literal `0.01`.  Fuel-indexed; 200 steps is
ample for this loop. -/
def sweepAux : Nat → Dy → List Dy
  | 0, _ => []
  | fuel + 1, p => if Dy.le p oneDy then p :: sweepAux fuel (Dy.add p centi) else []

/-- The probability points of the mode-C sweep, as binary64 values. -/
def sweepPs : List Dy := sweepAux 200 ⟨0, 0⟩

/-- The probability points of the mode-C sweep, as exact rationals. -/
def sweepPsRat : List ℚ := sweepPs.map Dy.toRat

/-- `Speleo::Run`, case C: one mode-B invocation per visited probability
point, in loop order, producing the (p, empirical probability) pairs. -/
def sweep (n sampleSize : Nat) (u : Nat → ℚ) : List (ℚ × ℚ) :=
  sweepPs.map fun p => (p.toRat, (runModeB n p sampleSize u).2)

/-- The fully open `n × n` grid (no obstructed cell). -/
def openGrid (n : Nat) : Cave := mkGrid n fun _ _ => false

/-- Boolean strict-increase check on a list of rationals (an executable
companion of `List.Chain' (· < ·)`). -/
def ratChainLt : List ℚ → Bool
  | [] => true
  | [_] => true
  | a :: b :: t => (decide (a < b)) && ratChainLt (b :: t)

/-- The coordinates of a region. -/
def Region.pos (r : Region) : Nat × Nat := (r.y, r.x)

/-- Cell `c` of `cave` is discovered if it is accessible (out-of-range
reads yield the inaccessible `dummyRegion`, so they satisfy this
vacuously). -/
def DiscIfAcc (cave : Cave) (c : Nat × Nat) : Prop :=
  (getCell cave c.1 c.2).IsAccessible = true → (getCell cave c.1 c.2).discovered = true

/-- All four potential neighbours of `c` (under the traversal's bounds
guards, for grid size `n`) are discovered if accessible. -/
def NbrsDiscovered (n : Nat) (cave : Cave) (c : Nat × Nat) : Prop :=
  (1 ≤ c.1 → DiscIfAcc cave (c.1 - 1, c.2)) ∧
  (c.2 + 1 < n → DiscIfAcc cave (c.1, c.2 + 1)) ∧
  (1 ≤ c.2 → DiscIfAcc cave (c.1, c.2 - 1)) ∧
  (c.1 + 1 < n → DiscIfAcc cave (c.1 + 1, c.2))

/-- The core loop invariant of `AttemptCaveTraverse`, tying together the
grid, the stack and the ghost traces:

* `coordsOK`: every stored cell carries its own position;
* `pushPop`: everything ever pushed (seeds included) has been popped or
  is still on the stack;
* `discPush`: every discovered cell was pushed by the loop's
  `ScoutRegion`;
* `pushDisc`: everything pushed by the loop is discovered in the grid;
* `pushNodup`: the loop never pushes the same position twice;
* `pushBounds`: loop pushes are in range of the stored grid;
* `popBottomFree`: outside mode A, a bottom-row region is never popped
  (the `break` fires first);
* `bottomSucc`: once a bottom-row region has been popped, at least one
  success is recorded;
* `doneSucc`: the `break` only fires together with a success. -/
structure CoreInv (s : TState) : Prop where
  coordsOK : ∀ y x, y < s.cave.length → x < (s.cave.getD y []).length →
    (getCell s.cave y x).y = y ∧ (getCell s.cave y x).x = x
  pushPop : ∀ c, c ∈ s.seedTrace ++ s.pushTrace →
    c ∈ s.popTrace ∨ c ∈ s.stack.map Region.pos
  discPush : ∀ y x, y < s.cave.length → x < (s.cave.getD y []).length →
    (getCell s.cave y x).discovered = true → (y, x) ∈ s.pushTrace
  pushDisc : ∀ c ∈ s.pushTrace, (getCell s.cave c.1 c.2).discovered = true
  pushNodup : s.pushTrace.Nodup
  pushBounds : ∀ c ∈ s.pushTrace,
    c.1 < s.cave.length ∧ c.2 < (s.cave.getD c.1 []).length
  popBottomFree : s.modeA = false → ∀ c ∈ s.popTrace, c.1 + 1 ≠ s.n
  bottomSucc : ∀ c ∈ s.popTrace, c.1 + 1 = s.n → 1 ≤ s.successes
  doneSucc : s.done = true → 1 ≤ s.successes

/-- Every popped position has all its accessible neighbours discovered
(the other half of the loop invariant). -/
def PopJ (s : TState) : Prop :=
  ∀ c ∈ s.popTrace, NbrsDiscovered s.n s.cave c

/-  ------------------------------------------------------------------
    Theorems
    ------------------------------------------------------------------ -/

set_option maxRecDepth 40000

theorem ratChainLt_chain' : ∀ l : List ℚ, ratChainLt l = true → List.Chain' (· < ·) l
  | [], _ => List.chain'_nil
  | [_], _ => List.chain'_singleton _
  | a :: b :: t, h => by
      rw [ratChainLt, Bool.and_eq_true, decide_eq_true_eq] at h
      exact List.chain'_cons.mpr ⟨h.1, ratChainLt_chain' (b :: t) h.2⟩

/-- Claim C3, counterexample: the mode-C sweep visits only 100
accessibility values, not 101, and the endpoint `p = 1.00` is never
visited (the binary64 accumulation `0.01 + ⋯ + 0.01` overshoots `1.0`
after 100 steps). -/
theorem sweep_misses_endpoint :
    sweepPsRat.length = 100 ∧ (1 : ℚ) ∉ sweepPsRat := by
  constructor
  · decide
  · decide

/-- Claim C3 (amended): for every `N` and `S`, the mode-C sweep invokes
the mode-B Sampling Controller exactly once per accessibility value in a
fixed sequence of 100 binary64 points starting at `0.00`, in strictly
increasing order of `p`; the point `p = 1.00` is not among them. -/
theorem sweep_invokes_sampler_per_point :
    (∀ n sampleSize : Nat, ∀ u : Nat → ℚ,
        (sweep n sampleSize u).map Prod.fst = sweepPsRat) ∧
      sweepPsRat.length = 100 ∧
      sweepPsRat.head? = some 0 ∧
      List.Chain' (· < ·) sweepPsRat ∧
      (1 : ℚ) ∉ sweepPsRat := by
  refine ⟨?_, ?_, ?_, ?_, ?_⟩
  · intro n sampleSize u
    simp only [sweep, sweepPsRat, List.map_map]
    rfl
  · decide
  · decide
  · exact ratChainLt_chain' sweepPsRat (by decide)
  · decide

/-- Claim C1, counterexample: on the fully open 2 × 2 grid in
visualization mode, the top-row cell `(0,0)` is pushed onto the
exploration stack twice — once during entry seeding (over a copy, which
leaves the canonical cell unmarked) and once more when scouted as the
neighbour of a popped cell. -/
theorem seed_cell_pushed_twice :
    ((attemptCaveTraverse 2 true (openGrid 2)).seedTrace ++
        (attemptCaveTraverse 2 true (openGrid 2)).pushTrace).count (0, 0) = 2 := by
  decide

/-- Claim C2, counterexample: on the fully open 1 × 1 grid in
visualization mode the traversal reports "found" (`successes > 0`), yet
the single cell of the grid is never marked discovered — entry seeding
marks only a copy, and a 1 × 1 grid has no neighbour scouts. -/
theorem open_grid_one_not_discovered :
    0 < (attemptCaveTraverse 1 true (openGrid 1)).successes ∧
      (getCell (attemptCaveTraverse 1 true (openGrid 1)).cave 0 0).discovered = false := by
  constructor
  · decide
  · decide

/-  Basic algebra of `getCell` / `markDiscovered`. -/

theorem getCell_oob_row {cave : Cave} {y x : Nat} (h : cave.length ≤ y) :
    getCell cave y x = dummyRegion := by
  simp [getCell, List.getD_eq_getElem?_getD, List.getElem?_eq_none h]

theorem getCell_oob_col {cave : Cave} {y x : Nat}
    (h : (cave.getD y []).length ≤ x) : getCell cave y x = dummyRegion := by
  unfold getCell
  rw [List.getD_eq_getElem?_getD, List.getElem?_eq_none h]
  rfl

theorem markDiscovered_length (cave : Cave) (y x : Nat) :
    (markDiscovered cave y x).length = cave.length := by
  simp [markDiscovered]

theorem markDiscovered_row_length (cave : Cave) (y x a : Nat) :
    ((markDiscovered cave y x).getD a []).length = (cave.getD a []).length := by
  simp only [markDiscovered, List.getD_eq_getElem?_getD, List.getElem?_set]
  by_cases hya : y = a
  · subst hya
    by_cases hy : y < cave.length
    · simp [hy, List.getD_eq_getElem?_getD]
    · simp [hy, List.getElem?_eq_none (Nat.le_of_not_lt hy)]
  · simp [hya]

theorem getCell_markDiscovered_ne {cave : Cave} {y x a b : Nat}
    (h : a ≠ y ∨ b ≠ x) :
    getCell (markDiscovered cave y x) a b = getCell cave a b := by
  rcases h with h | h
  · simp [getCell, markDiscovered, List.getD_eq_getElem?_getD,
      List.getElem?_set_ne (fun he => h he.symm)]
  · simp only [getCell, markDiscovered, List.getD_eq_getElem?_getD, List.getElem?_set]
    by_cases hya : y = a
    · subst hya
      by_cases hy : y < cave.length
      · simp [hy, List.getD_eq_getElem?_getD, List.getElem?_set_ne (fun he => h he.symm)]
      · simp [hy, List.getElem?_eq_none (Nat.le_of_not_lt hy)]
    · simp [hya]

theorem getCell_markDiscovered_self_of_lt {cave : Cave} {y x : Nat}
    (hy : y < cave.length) (hx : x < (cave.getD y []).length) :
    getCell (markDiscovered cave y x) y x =
      { getCell cave y x with discovered := true } := by
  simp only [getCell, markDiscovered, List.getD_eq_getElem?_getD] at *
  rw [List.getElem?_set_self hy, Option.getD_some, List.getElem?_set_self hx,
    Option.getD_some]

theorem getCell_markDiscovered_self (cave : Cave) (y x : Nat) :
    getCell (markDiscovered cave y x) y x = getCell cave y x ∨
      getCell (markDiscovered cave y x) y x =
        { getCell cave y x with discovered := true } := by
  by_cases hy : y < cave.length
  · by_cases hx : x < (cave.getD y []).length
    · exact Or.inr (getCell_markDiscovered_self_of_lt hy hx)
    · left
      have hrow : (markDiscovered cave y x).getD y []
          = (cave.getD y []).set x { getCell cave y x with discovered := true } := by
        unfold markDiscovered
        rw [List.getD_eq_getElem?_getD, List.getElem?_set_self hy, Option.getD_some]
      unfold getCell
      rw [hrow, List.set_eq_of_length_le (Nat.le_of_not_lt hx)]
  · left
    have : markDiscovered cave y x = cave :=
      List.set_eq_of_length_le (Nat.le_of_not_lt hy)
    rw [this]

theorem markDiscovered_obstructed (cave : Cave) (y x a b : Nat) :
    (getCell (markDiscovered cave y x) a b).obstructed =
      (getCell cave a b).obstructed := by
  by_cases h : a = y ∧ b = x
  · obtain ⟨rfl, rfl⟩ := h
    rcases getCell_markDiscovered_self cave a b with h | h <;> rw [h]
  · have h' : a ≠ y ∨ b ≠ x := by
      by_cases ha : a = y
      · exact Or.inr fun hb => h ⟨ha, hb⟩
      · exact Or.inl ha
    rw [getCell_markDiscovered_ne h']

theorem markDiscovered_coords (cave : Cave) (y x a b : Nat) :
    (getCell (markDiscovered cave y x) a b).y = (getCell cave a b).y ∧
      (getCell (markDiscovered cave y x) a b).x = (getCell cave a b).x := by
  by_cases h : a = y ∧ b = x
  · obtain ⟨rfl, rfl⟩ := h
    rcases getCell_markDiscovered_self cave a b with h | h <;> rw [h] <;> exact ⟨rfl, rfl⟩
  · have h' : a ≠ y ∨ b ≠ x := by
      by_cases ha : a = y
      · exact Or.inr fun hb => h ⟨ha, hb⟩
      · exact Or.inl ha
    rw [getCell_markDiscovered_ne h']
    exact ⟨rfl, rfl⟩

theorem markDiscovered_disc_mono {cave : Cave} {a b : Nat} (y x : Nat)
    (h : (getCell cave a b).discovered = true) :
    (getCell (markDiscovered cave y x) a b).discovered = true := by
  by_cases hc : a = y ∧ b = x
  · obtain ⟨rfl, rfl⟩ := hc
    rcases getCell_markDiscovered_self cave a b with h' | h'
    · rw [h']; exact h
    · rw [h']
  · have h' : a ≠ y ∨ b ≠ x := by
      by_cases ha : a = y
      · exact Or.inr fun hb => hc ⟨ha, hb⟩
      · exact Or.inl ha
    rw [getCell_markDiscovered_ne h']
    exact h

/-  Undiscovered-cell counting. -/

theorem undisc_filter_set_lt (row : List Region) (x : Nat)
    (hx : x < row.length) (hd : (row.getD x dummyRegion).discovered = false) :
    ((row.set x { row.getD x dummyRegion with discovered := true }).filter
        (fun r => !r.discovered)).length <
      ((row.filter fun r => !r.discovered)).length := by
  induction row generalizing x with
  | nil => simp at hx
  | cons r t ih =>
    cases x with
    | zero =>
      simp only [List.getD_cons_zero] at hd
      simp [List.filter_cons, List.getD_cons_zero, hd]
    | succ x =>
      simp only [List.getD_cons_succ] at hd
      have hx' : x < t.length := Nat.lt_of_succ_lt_succ hx
      have hlt := ih x hx' hd
      rw [List.set_cons_succ, List.getD_cons_succ]
      generalize hC : ({ t.getD x dummyRegion with discovered := true } : Region) = C at hlt ⊢
      cases hr : r.discovered <;> simp [List.filter_cons, hr] <;> omega

theorem undiscoveredCount_cons (row : List Region) (t : Cave) :
    undiscoveredCount (row :: t) =
      (row.filter fun r => !r.discovered).length + undiscoveredCount t := by
  simp [undiscoveredCount]

theorem markDiscovered_cons_zero (row : List Region) (t : Cave) (x : Nat) :
    markDiscovered (row :: t) 0 x =
      (row.set x { row.getD x dummyRegion with discovered := true }) :: t := rfl

theorem markDiscovered_cons_succ (row : List Region) (t : Cave) (y x : Nat) :
    markDiscovered (row :: t) (y + 1) x = row :: markDiscovered t y x := rfl

theorem undiscoveredCount_mark_lt {cave : Cave} {y x : Nat}
    (hy : y < cave.length) (hx : x < (cave.getD y []).length)
    (hd : (getCell cave y x).discovered = false) :
    undiscoveredCount (markDiscovered cave y x) < undiscoveredCount cave := by
  induction cave generalizing y with
  | nil => simp at hy
  | cons row t ih =>
    cases y with
    | zero =>
      rw [markDiscovered_cons_zero, undiscoveredCount_cons, undiscoveredCount_cons]
      have : ((row.set x { row.getD x dummyRegion with discovered := true }).filter
          (fun r => !r.discovered)).length <
          ((row.filter fun r => !r.discovered)).length :=
        undisc_filter_set_lt row x (by simpa using hx) (by simpa [getCell] using hd)
      omega
    | succ y =>
      rw [markDiscovered_cons_succ, undiscoveredCount_cons, undiscoveredCount_cons]
      have : undiscoveredCount (markDiscovered t y x) < undiscoveredCount t :=
        ih (Nat.lt_of_succ_lt_succ hy) (by simpa [List.getD_cons_succ] using hx)
          (by simpa [getCell, List.getD_cons_succ] using hd)
      omega

/-  Case analysis of one `ScoutRegion` call. -/

theorem scout_cases (s : TState) (y x : Nat) :
    (((getCell s.cave y x).IsAccessible && (getCell s.cave y x).IsUnknown) = false ∧
        scout s y x = s) ∨
      ((getCell s.cave y x).IsAccessible = true ∧
        (getCell s.cave y x).IsUnknown = true ∧
        y < s.cave.length ∧ x < (s.cave.getD y []).length ∧
        scout s y x = { s with
          cave := markDiscovered s.cave y x
          stack := { getCell s.cave y x with discovered := true } :: s.stack
          pushTrace := (y, x) :: s.pushTrace }) := by
  by_cases h : ((getCell s.cave y x).IsAccessible &&
      (getCell s.cave y x).IsUnknown) = true
  · right
    rw [Bool.and_eq_true] at h
    have hy : y < s.cave.length := by
      by_contra hy
      have := @getCell_oob_row s.cave y x (Nat.le_of_not_lt hy)
      rw [this] at h
      exact absurd h.1 (by decide)
    have hx : x < (s.cave.getD y []).length := by
      by_contra hx
      have := @getCell_oob_col s.cave y x (Nat.le_of_not_lt hx)
      rw [this] at h
      exact absurd h.1 (by decide)
    refine ⟨h.1, h.2, hy, hx, ?_⟩
    unfold scout
    rw [if_pos (by rw [Bool.and_eq_true]; exact h)]
  · left
    refine ⟨Bool.eq_false_iff.mpr h, ?_⟩
    unfold scout
    rw [if_neg h]

/-  A preservation relation between traversal states: everything a
`ScoutRegion` call leaves intact or only grows. -/

structure StepRel (s t : TState) : Prop where
  n_eq : t.n = s.n
  modeA_eq : t.modeA = s.modeA
  done_eq : t.done = s.done
  succ_eq : t.successes = s.successes
  seed_eq : t.seedTrace = s.seedTrace
  pop_eq : t.popTrace = s.popTrace
  cave_len : t.cave.length = s.cave.length
  row_len : ∀ a, (t.cave.getD a []).length = (s.cave.getD a []).length
  obst : ∀ a b, (getCell t.cave a b).obstructed = (getCell s.cave a b).obstructed
  coordY : ∀ a b, (getCell t.cave a b).y = (getCell s.cave a b).y
  coordX : ∀ a b, (getCell t.cave a b).x = (getCell s.cave a b).x
  disc_mono : ∀ a b, (getCell s.cave a b).discovered = true →
    (getCell t.cave a b).discovered = true
  push_mono : ∀ c ∈ s.pushTrace, c ∈ t.pushTrace
  stack_mono : ∀ r ∈ s.stack, r ∈ t.stack
  meas_le : stateMeasure t ≤ stateMeasure s

theorem stepRel_refl (s : TState) : StepRel s s :=
  ⟨rfl, rfl, rfl, rfl, rfl, rfl, rfl, fun _ => rfl, fun _ _ => rfl, fun _ _ => rfl,
    fun _ _ => rfl, fun _ _ h => h, fun _ h => h, fun _ h => h, Nat.le_refl _⟩

theorem stepRel_trans {s t u : TState} (h1 : StepRel s t) (h2 : StepRel t u) :
    StepRel s u where
  n_eq := h2.n_eq.trans h1.n_eq
  modeA_eq := h2.modeA_eq.trans h1.modeA_eq
  done_eq := h2.done_eq.trans h1.done_eq
  succ_eq := h2.succ_eq.trans h1.succ_eq
  seed_eq := h2.seed_eq.trans h1.seed_eq
  pop_eq := h2.pop_eq.trans h1.pop_eq
  cave_len := h2.cave_len.trans h1.cave_len
  row_len := fun a => (h2.row_len a).trans (h1.row_len a)
  obst := fun a b => (h2.obst a b).trans (h1.obst a b)
  coordY := fun a b => (h2.coordY a b).trans (h1.coordY a b)
  coordX := fun a b => (h2.coordX a b).trans (h1.coordX a b)
  disc_mono := fun a b h => h2.disc_mono a b (h1.disc_mono a b h)
  push_mono := fun c h => h2.push_mono c (h1.push_mono c h)
  stack_mono := fun r h => h2.stack_mono r (h1.stack_mono r h)
  meas_le := Nat.le_trans h2.meas_le h1.meas_le

theorem scout_stepRel (s : TState) (y x : Nat) : StepRel s (scout s y x) := by
  rcases scout_cases s y x with ⟨_, h⟩ | ⟨hacc, hunk, hy, hx, h⟩
  · rw [h]; exact stepRel_refl s
  · rw [h]
    have hmark := undiscoveredCount_mark_lt hy hx
      (by simpa [Region.IsUnknown] using hunk)
    refine ⟨rfl, rfl, rfl, rfl, rfl, rfl, markDiscovered_length _ _ _,
      markDiscovered_row_length _ _ _, markDiscovered_obstructed _ _ _,
      fun a b => (markDiscovered_coords s.cave y x a b).1,
      fun a b => (markDiscovered_coords s.cave y x a b).2,
      fun a b hd => markDiscovered_disc_mono y x hd,
      fun c hc => List.mem_cons_of_mem _ hc,
      fun r hr => List.mem_cons_of_mem _ hr, ?_⟩
    simp only [stateMeasure, List.length_cons]
    omega

theorem scoutIf_stepRel (c : Prop) [Decidable c] (s : TState) (y x : Nat) :
    StepRel s (scoutIf c s y x) := by
  unfold scoutIf
  split
  · exact scout_stepRel s y x
  · exact stepRel_refl s

theorem expand_stepRel (s : TState) (y x : Nat) : StepRel s (expand s y x) := by
  unfold expand
  exact stepRel_trans (scoutIf_stepRel _ _ _ _) (stepRel_trans (scoutIf_stepRel _ _ _ _)
    (stepRel_trans (scoutIf_stepRel _ _ _ _) (scoutIf_stepRel _ _ _ _)))

/-  After a `ScoutRegion` call on a cell, that cell is discovered whenever
it is accessible. -/

theorem scout_discIfAcc (s : TState) (y x : Nat) :
    DiscIfAcc (scout s y x).cave (y, x) := by
  rcases scout_cases s y x with ⟨hg, h⟩ | ⟨hacc, hunk, hy, hx, h⟩
  · rw [h]
    intro hacc
    rcases Bool.and_eq_false_iff.mp hg with hg | hg
    · exact absurd hacc (by simp [hg])
    · simpa [Region.IsUnknown] using hg
  · rw [h]
    intro _
    show (getCell (markDiscovered s.cave y x) y x).discovered = true
    rw [getCell_markDiscovered_self_of_lt hy hx]

theorem stepRel_isAccessible {s t : TState} (h : StepRel s t) (a b : Nat) :
    (getCell t.cave a b).IsAccessible = (getCell s.cave a b).IsAccessible := by
  unfold Region.IsAccessible
  rw [h.obst a b]

theorem StepRel.discIfAcc_mono {s t : TState} (h : StepRel s t) (c : Nat × Nat)
    (hd : DiscIfAcc s.cave c) : DiscIfAcc t.cave c := by
  intro hacc
  rw [stepRel_isAccessible h] at hacc
  exact h.disc_mono _ _ (hd hacc)

theorem StepRel.nbrsDiscovered_mono {s t : TState} (h : StepRel s t) (c : Nat × Nat)
    (hd : NbrsDiscovered s.n s.cave c) : NbrsDiscovered s.n t.cave c := by
  obtain ⟨h1, h2, h3, h4⟩ := hd
  exact ⟨fun g => h.discIfAcc_mono _ (h1 g), fun g => h.discIfAcc_mono _ (h2 g),
    fun g => h.discIfAcc_mono _ (h3 g), fun g => h.discIfAcc_mono _ (h4 g)⟩

theorem scoutIf_discIfAcc (c : Prop) [Decidable c] (s : TState) (y x : Nat)
    (hc : c) : DiscIfAcc (scoutIf c s y x).cave (y, x) := by
  unfold scoutIf
  rw [if_pos hc]
  exact scout_discIfAcc s y x

/-- After the four neighbour scouts of `expand`, every in-guard accessible
neighbour of `(y, x)` is discovered. -/
theorem expand_nbrsDiscovered (s : TState) (y x : Nat) :
    NbrsDiscovered s.n (expand s y x).cave (y, x) := by
  refine ⟨?_, ?_, ?_, ?_⟩
  · intro h1
    have hd : DiscIfAcc (scoutIf (1 ≤ y) s (y - 1) x).cave (y - 1, x) :=
      scoutIf_discIfAcc _ _ _ _ h1
    exact (stepRel_trans (scoutIf_stepRel _ _ _ _)
      (stepRel_trans (scoutIf_stepRel _ _ _ _) (scoutIf_stepRel _ _ _ _))).discIfAcc_mono _ hd
  · intro h2
    have hd : DiscIfAcc (scoutIf (x + 1 < s.n) (scoutIf (1 ≤ y) s (y - 1) x)
        y (x + 1)).cave (y, x + 1) := scoutIf_discIfAcc _ _ _ _ h2
    exact (stepRel_trans (scoutIf_stepRel _ _ _ _) (scoutIf_stepRel _ _ _ _)).discIfAcc_mono _ hd
  · intro h3
    have hd : DiscIfAcc (scoutIf (1 ≤ x) (scoutIf (x + 1 < s.n)
        (scoutIf (1 ≤ y) s (y - 1) x) y (x + 1)) y (x - 1)).cave (y, x - 1) :=
      scoutIf_discIfAcc _ _ _ _ h3
    exact (scoutIf_stepRel _ _ _ _).discIfAcc_mono _ hd
  · intro h4
    exact scoutIf_discIfAcc _ _ _ _ h4

/-  `CoreInv` is preserved by every `ScoutRegion` call. -/

theorem scout_coreInv {s : TState} (h : CoreInv s) (y x : Nat) :
    CoreInv (scout s y x) := by
  rcases scout_cases s y x with ⟨_, he⟩ | ⟨hacc, hunk, hy, hx, he⟩
  · rw [he]; exact h
  · rw [he]
    have hcoords := h.coordsOK y x hy hx
    refine ⟨?_, ?_, ?_, ?_, ?_, ?_, h.popBottomFree, h.bottomSucc, h.doneSucc⟩
    · intro a b ha hb
      rw [markDiscovered_length] at ha
      rw [markDiscovered_row_length] at hb
      rw [(markDiscovered_coords s.cave y x a b).1,
        (markDiscovered_coords s.cave y x a b).2]
      exact h.coordsOK a b ha hb
    · intro c hc
      rcases List.mem_append.mp hc with hc | hc
      · rcases h.pushPop c (List.mem_append_left _ hc) with hp | hp
        · exact Or.inl hp
        · exact Or.inr (List.mem_cons_of_mem _ hp)
      · rcases List.mem_cons.mp hc with rfl | hc
        · refine Or.inr (List.mem_cons.mpr (Or.inl ?_))
          simp [Region.pos, hcoords.1, hcoords.2]
        · rcases h.pushPop c (List.mem_append_right _ hc) with hp | hp
          · exact Or.inl hp
          · exact Or.inr (List.mem_cons_of_mem _ hp)
    · intro a b ha hb hd
      rw [markDiscovered_length] at ha
      rw [markDiscovered_row_length] at hb
      by_cases hab : a = y ∧ b = x
      · obtain ⟨rfl, rfl⟩ := hab
        exact List.mem_cons_self _ _
      · have hne : a ≠ y ∨ b ≠ x := by
          by_cases ha' : a = y
          · exact Or.inr fun hb' => hab ⟨ha', hb'⟩
          · exact Or.inl ha'
        rw [getCell_markDiscovered_ne hne] at hd
        exact List.mem_cons_of_mem _ (h.discPush a b ha hb hd)
    · intro c hc
      rcases List.mem_cons.mp hc with rfl | hc
      · rw [getCell_markDiscovered_self_of_lt hy hx]
      · exact markDiscovered_disc_mono y x (h.pushDisc c hc)
    · refine List.nodup_cons.mpr ⟨?_, h.pushNodup⟩
      intro hmem
      have := h.pushDisc (y, x) hmem
      rw [show ((y, x) : Nat × Nat).1 = y from rfl,
        show ((y, x) : Nat × Nat).2 = x from rfl] at this
      have hunk' : (getCell s.cave y x).discovered = false := by
        simpa [Region.IsUnknown] using hunk
      rw [this] at hunk'
      exact Bool.noConfusion hunk'
    · intro c hc
      rcases List.mem_cons.mp hc with rfl | hc
      · constructor
        · rw [markDiscovered_length]; exact hy
        · rw [markDiscovered_row_length]; exact hx
      · have := h.pushBounds c hc
        constructor
        · rw [markDiscovered_length]; exact this.1
        · rw [markDiscovered_row_length]; exact this.2

theorem scoutIf_coreInv (c : Prop) [Decidable c] {s : TState} (h : CoreInv s)
    (y x : Nat) : CoreInv (scoutIf c s y x) := by
  unfold scoutIf
  split
  · exact scout_coreInv h y x
  · exact h

theorem expand_coreInv {s : TState} (h : CoreInv s) (y x : Nat) :
    CoreInv (expand s y x) := by
  unfold expand
  exact scoutIf_coreInv _ (scoutIf_coreInv _ (scoutIf_coreInv _
    (scoutIf_coreInv _ h _ _) _ _) _ _) _ _

theorem stepRel_popJ {s t : TState} (hrel : StepRel s t) (h : PopJ s) : PopJ t := by
  intro c hc
  rw [hrel.pop_eq] at hc
  rw [hrel.n_eq]
  exact hrel.nbrsDiscovered_mono c (h c hc)

/-  `CoreInv` and `PopJ` through one pop-and-expand step. -/

theorem popThen_coreInv {s : TState} {region : Region} {rest : List Region}
    (h : CoreInv s) (hstack : s.stack = region :: rest)
    (hbf : s.modeA = false → region.y + 1 ≠ s.n)
    (hbs : region.y + 1 = s.n → 1 ≤ s.successes) :
    CoreInv (popThen s region.y region.x rest) := by
  apply expand_coreInv
  refine ⟨h.coordsOK, ?_, h.discPush, h.pushDisc, h.pushNodup, h.pushBounds,
    ?_, ?_, h.doneSucc⟩
  · intro c hc
    rcases h.pushPop c hc with hp | hp
    · exact Or.inl (List.mem_cons_of_mem _ hp)
    · rw [hstack] at hp
      rcases List.mem_cons.mp hp with rfl | hp
      · exact Or.inl (List.mem_cons_self _ _)
      · exact Or.inr hp
  · intro hm c hc
    rcases List.mem_cons.mp hc with rfl | hc
    · exact hbf hm
    · exact h.popBottomFree hm c hc
  · intro c hc hb
    rcases List.mem_cons.mp hc with rfl | hc
    · exact hbs hb
    · exact h.bottomSucc c hc hb

theorem popThen_popJ {s : TState} (h : PopJ s) (y x : Nat) (rest : List Region) :
    PopJ (popThen s y x rest) := by
  unfold popThen
  intro c hc
  have hrel := expand_stepRel
    { s with stack := rest, popTrace := (y, x) :: s.popTrace } y x
  rw [hrel.pop_eq] at hc
  rw [hrel.n_eq]
  rcases List.mem_cons.mp hc with rfl | hc
  · exact expand_nbrsDiscovered _ y x
  · exact hrel.nbrsDiscovered_mono c (h c hc)

/-  Loop unfolding equations. -/

theorem loop_succ_eq (fuel : Nat) (s : TState) :
    loop (fuel + 1) s =
      match s.stack with
      | [] => s
      | region :: rest =>
        if region.y + 1 = s.n then
          if !s.modeA then { s with successes := s.successes + 1, done := true }
          else loop fuel
            (popThen { s with successes := s.successes + 1 } region.y region.x rest)
        else loop fuel (popThen s region.y region.x rest) := rfl

theorem loop_succ_nil {fuel : Nat} {s : TState} (h : s.stack = []) :
    loop (fuel + 1) s = s := by
  rw [loop_succ_eq, h]

theorem loop_succ_cons {fuel : Nat} {s : TState} {region : Region}
    {rest : List Region} (h : s.stack = region :: rest) :
    loop (fuel + 1) s =
      if region.y + 1 = s.n then
        if !s.modeA then { s with successes := s.successes + 1, done := true }
        else loop fuel
          (popThen { s with successes := s.successes + 1 } region.y region.x rest)
      else loop fuel (popThen s region.y region.x rest) := by
  rw [loop_succ_eq, h]

/-  What one full loop run preserves or only grows. -/

structure LoopRel (s t : TState) : Prop where
  n_eq : t.n = s.n
  modeA_eq : t.modeA = s.modeA
  seed_eq : t.seedTrace = s.seedTrace
  cave_len : t.cave.length = s.cave.length
  row_len : ∀ a, (t.cave.getD a []).length = (s.cave.getD a []).length
  obst : ∀ a b, (getCell t.cave a b).obstructed = (getCell s.cave a b).obstructed
  coordY : ∀ a b, (getCell t.cave a b).y = (getCell s.cave a b).y
  coordX : ∀ a b, (getCell t.cave a b).x = (getCell s.cave a b).x
  disc_mono : ∀ a b, (getCell s.cave a b).discovered = true →
    (getCell t.cave a b).discovered = true
  succ_mono : s.successes ≤ t.successes
  push_mono : ∀ c ∈ s.pushTrace, c ∈ t.pushTrace
  pop_mono : ∀ c ∈ s.popTrace, c ∈ t.popTrace

theorem loopRel_refl (s : TState) : LoopRel s s :=
  ⟨rfl, rfl, rfl, rfl, fun _ => rfl, fun _ _ => rfl, fun _ _ => rfl, fun _ _ => rfl,
    fun _ _ h => h, Nat.le_refl _, fun _ h => h, fun _ h => h⟩

theorem loopRel_trans {s t u : TState} (h1 : LoopRel s t) (h2 : LoopRel t u) :
    LoopRel s u where
  n_eq := h2.n_eq.trans h1.n_eq
  modeA_eq := h2.modeA_eq.trans h1.modeA_eq
  seed_eq := h2.seed_eq.trans h1.seed_eq
  cave_len := h2.cave_len.trans h1.cave_len
  row_len := fun a => (h2.row_len a).trans (h1.row_len a)
  obst := fun a b => (h2.obst a b).trans (h1.obst a b)
  coordY := fun a b => (h2.coordY a b).trans (h1.coordY a b)
  coordX := fun a b => (h2.coordX a b).trans (h1.coordX a b)
  disc_mono := fun a b h => h2.disc_mono a b (h1.disc_mono a b h)
  succ_mono := Nat.le_trans h1.succ_mono h2.succ_mono
  push_mono := fun c h => h2.push_mono c (h1.push_mono c h)
  pop_mono := fun c h => h2.pop_mono c (h1.pop_mono c h)

theorem StepRel.toLoopRel {s t : TState} (h : StepRel s t) : LoopRel s t :=
  ⟨h.n_eq, h.modeA_eq, h.seed_eq, h.cave_len, h.row_len, h.obst, h.coordY, h.coordX,
    h.disc_mono, Nat.le_of_eq h.succ_eq.symm, h.push_mono,
    fun c hc => h.pop_eq ▸ hc⟩

theorem popThen_loopRel (s : TState) (y x : Nat) (rest : List Region) :
    LoopRel s (popThen s y x rest) := by
  unfold popThen
  have h1 : LoopRel s { s with stack := rest, popTrace := (y, x) :: s.popTrace } :=
    ⟨rfl, rfl, rfl, rfl, fun _ => rfl, fun _ _ => rfl, fun _ _ => rfl, fun _ _ => rfl,
      fun _ _ h => h, Nat.le_refl _, fun _ h => h,
      fun c hc => List.mem_cons_of_mem _ hc⟩
  exact loopRel_trans h1 (expand_stepRel _ y x).toLoopRel

theorem succInc_loopRel (s : TState) :
    LoopRel s { s with successes := s.successes + 1 } :=
  ⟨rfl, rfl, rfl, rfl, fun _ => rfl, fun _ _ => rfl, fun _ _ => rfl, fun _ _ => rfl,
    fun _ _ h => h, Nat.le_succ _, fun _ h => h, fun _ h => h⟩

theorem breakState_loopRel (s : TState) :
    LoopRel s { s with successes := s.successes + 1, done := true } :=
  ⟨rfl, rfl, rfl, rfl, fun _ => rfl, fun _ _ => rfl, fun _ _ => rfl, fun _ _ => rfl,
    fun _ _ h => h, Nat.le_succ _, fun _ h => h, fun _ h => h⟩

theorem loop_loopRel : ∀ (fuel : Nat) (s : TState), LoopRel s (loop fuel s) := by
  intro fuel
  induction fuel with
  | zero => exact fun s => loopRel_refl s
  | succ fuel ih =>
    intro s
    cases hstack : s.stack with
    | nil => rw [loop_succ_nil hstack]; exact loopRel_refl s
    | cons region rest =>
      rw [loop_succ_cons hstack]
      by_cases hb : region.y + 1 = s.n
      · rw [if_pos hb]
        by_cases hm : s.modeA = true
        · rw [if_neg (by rw [hm]; simp)]
          exact loopRel_trans (loopRel_trans (succInc_loopRel s)
            (popThen_loopRel _ region.y region.x rest)) (ih _)
        · rw [if_pos (by rw [Bool.not_eq_true] at hm; rw [hm]; rfl)]
          exact breakState_loopRel s
      · rw [if_neg hb]
        exact loopRel_trans (popThen_loopRel s region.y region.x rest) (ih _)

/-  The two invariant halves are preserved by the whole loop. -/

theorem coreInv_succInc {s : TState} (h : CoreInv s) :
    CoreInv { s with successes := s.successes + 1 } :=
  ⟨h.coordsOK, h.pushPop, h.discPush, h.pushDisc, h.pushNodup, h.pushBounds,
    h.popBottomFree, fun c hc hb => Nat.le_succ_of_le (h.bottomSucc c hc hb),
    fun _ => Nat.succ_le_succ (Nat.zero_le _)⟩

theorem coreInv_breakState {s : TState} (h : CoreInv s) :
    CoreInv { s with successes := s.successes + 1, done := true } :=
  ⟨h.coordsOK, h.pushPop, h.discPush, h.pushDisc, h.pushNodup, h.pushBounds,
    h.popBottomFree, fun c hc hb => Nat.le_succ_of_le (h.bottomSucc c hc hb),
    fun _ => Nat.succ_le_succ (Nat.zero_le _)⟩

theorem loop_inv : ∀ (fuel : Nat) (s : TState), CoreInv s → PopJ s →
    CoreInv (loop fuel s) ∧ PopJ (loop fuel s) := by
  intro fuel
  induction fuel with
  | zero => exact fun s hc hp => ⟨hc, hp⟩
  | succ fuel ih =>
    intro s hc hp
    cases hstack : s.stack with
    | nil => rw [loop_succ_nil hstack]; exact ⟨hc, hp⟩
    | cons region rest =>
      rw [loop_succ_cons hstack]
      by_cases hb : region.y + 1 = s.n
      · rw [if_pos hb]
        by_cases hm : s.modeA = true
        · rw [if_neg (by rw [hm]; simp)]
          have hc1 : CoreInv ({ s with successes := s.successes + 1 } : TState) :=
            coreInv_succInc hc
          have hp1 : PopJ ({ s with successes := s.successes + 1 } : TState) := hp
          have hstack1 : ({ s with successes := s.successes + 1 } : TState).stack
              = region :: rest := hstack
          have hbf1 : ({ s with successes := s.successes + 1 } : TState).modeA = false →
              region.y + 1 ≠ ({ s with successes := s.successes + 1 } : TState).n := by
            intro hmf
            have hmf' : s.modeA = false := hmf
            rw [hmf'] at hm
            exact Bool.noConfusion hm
          have hbs1 : region.y + 1 = ({ s with successes := s.successes + 1 } : TState).n →
              1 ≤ ({ s with successes := s.successes + 1 } : TState).successes :=
            fun _ => Nat.succ_le_succ (Nat.zero_le _)
          exact ih _ (popThen_coreInv hc1 hstack1 hbf1 hbs1)
            (popThen_popJ hp1 region.y region.x rest)
        · rw [if_pos (by rw [Bool.not_eq_true] at hm; rw [hm]; rfl)]
          exact ⟨coreInv_breakState hc, hp⟩
      · rw [if_neg hb]
        apply ih
        · exact popThen_coreInv hc hstack (fun _ => hb) (fun hbb => absurd hbb hb)
        · exact popThen_popJ hp region.y region.x rest

/-  Fuel sufficiency: the loop reaches a terminal state (break fired or
stack exhausted) within `stateMeasure + 1` iterations. -/

theorem popThen_measure (s : TState) (y x : Nat) (rest : List Region) :
    stateMeasure (popThen s y x rest) ≤ rest.length + 2 * undiscoveredCount s.cave := by
  have h := (expand_stepRel
    { s with stack := rest, popTrace := (y, x) :: s.popTrace } y x).meas_le
  unfold popThen
  exact h

theorem loop_terminal : ∀ (fuel : Nat) (s : TState), stateMeasure s < fuel →
    (loop fuel s).done = true ∨ (loop fuel s).stack = [] := by
  intro fuel
  induction fuel with
  | zero => intro s h; exact absurd h (Nat.not_lt_zero _)
  | succ fuel ih =>
    intro s hmeas
    cases hstack : s.stack with
    | nil => rw [loop_succ_nil hstack]; exact Or.inr hstack
    | cons region rest =>
      have hlen : stateMeasure s = rest.length + 1 + 2 * undiscoveredCount s.cave := by
        unfold stateMeasure
        rw [hstack, List.length_cons]
      rw [loop_succ_cons hstack]
      by_cases hb : region.y + 1 = s.n
      · rw [if_pos hb]
        by_cases hm : s.modeA = true
        · rw [if_neg (by rw [hm]; simp)]
          apply ih
          have := popThen_measure { s with successes := s.successes + 1 }
            region.y region.x rest
          have hcave : undiscoveredCount ({ s with successes := s.successes + 1 } :
              TState).cave = undiscoveredCount s.cave := rfl
          omega
        · rw [if_pos (by rw [Bool.not_eq_true] at hm; rw [hm]; rfl)]
          exact Or.inl rfl
      · rw [if_neg hb]
        apply ih
        have := popThen_measure s region.y region.x rest
        omega

/-  Mode-dependent behaviour of the loop. -/

theorem popThen_done (s : TState) (y x : Nat) (rest : List Region) :
    (popThen s y x rest).done = s.done :=
  (expand_stepRel { s with stack := rest, popTrace := (y, x) :: s.popTrace } y x).done_eq

theorem popThen_succ (s : TState) (y x : Nat) (rest : List Region) :
    (popThen s y x rest).successes = s.successes :=
  (expand_stepRel { s with stack := rest, popTrace := (y, x) :: s.popTrace } y x).succ_eq

theorem popThen_modeA (s : TState) (y x : Nat) (rest : List Region) :
    (popThen s y x rest).modeA = s.modeA :=
  (expand_stepRel { s with stack := rest, popTrace := (y, x) :: s.popTrace } y x).modeA_eq

/-- In visualization mode the `break` never fires. -/
theorem loop_done_modeA : ∀ (fuel : Nat) (s : TState), s.modeA = true →
    (loop fuel s).done = s.done := by
  intro fuel
  induction fuel with
  | zero => intro s _; rfl
  | succ fuel ih =>
    intro s hm
    cases hstack : s.stack with
    | nil => rw [loop_succ_nil hstack]
    | cons region rest =>
      rw [loop_succ_cons hstack]
      by_cases hb : region.y + 1 = s.n
      · rw [if_pos hb, if_neg (by rw [hm]; simp)]
        rw [ih _ (by rw [popThen_modeA]; exact hm), popThen_done]
      · rw [if_neg hb, ih _ (by rw [popThen_modeA]; exact hm), popThen_done]

/-- Outside visualization mode, the loop records exactly one success when
the `break` fires and none otherwise. -/
theorem loop_modeB_succ : ∀ (fuel : Nat) (s : TState), s.modeA = false →
    s.done = false →
    ((loop fuel s).done = true → (loop fuel s).successes = s.successes + 1) ∧
    ((loop fuel s).done = false → (loop fuel s).successes = s.successes) := by
  intro fuel
  induction fuel with
  | zero =>
    intro s _ hdone
    exact ⟨fun hd => absurd (hdone ▸ hd) (by simp), fun _ => rfl⟩
  | succ fuel ih =>
    intro s hm hdone
    cases hstack : s.stack with
    | nil =>
      rw [loop_succ_nil hstack]
      exact ⟨fun hd => absurd (hdone ▸ hd) (by simp), fun _ => rfl⟩
    | cons region rest =>
      rw [loop_succ_cons hstack]
      by_cases hb : region.y + 1 = s.n
      · rw [if_pos hb, if_pos (by rw [hm]; rfl)]
        exact ⟨fun _ => rfl, fun hd => Bool.noConfusion hd⟩
      · rw [if_neg hb]
        have := ih (popThen s region.y region.x rest)
          (by rw [popThen_modeA]; exact hm) (by rw [popThen_done]; exact hdone)
        rw [popThen_succ] at this
        exact this

/-- Outside visualization mode, when the `break` fires the stack still
holds the successful bottom-row region on top. -/
theorem loop_modeB_bottom : ∀ (fuel : Nat) (s : TState), s.modeA = false →
    s.done = false → (loop fuel s).done = true →
    ∃ r rest', (loop fuel s).stack = r :: rest' ∧ r.y + 1 = (loop fuel s).n := by
  intro fuel
  induction fuel with
  | zero =>
    intro s _ hdone hd
    exact absurd (hdone ▸ hd) (by simp)
  | succ fuel ih =>
    intro s hm hdone
    cases hstack : s.stack with
    | nil =>
      rw [loop_succ_nil hstack]
      intro hd
      exact absurd (hdone ▸ hd) (by simp)
    | cons region rest =>
      rw [loop_succ_cons hstack]
      by_cases hb : region.y + 1 = s.n
      · rw [if_pos hb, if_pos (by rw [hm]; rfl)]
        intro _
        exact ⟨region, rest, hstack, hb⟩
      · rw [if_neg hb]
        exact ih (popThen s region.y region.x rest)
          (by rw [popThen_modeA]; exact hm) (by rw [popThen_done]; exact hdone)

/-  The entry seeding, described explicitly. -/

theorem seedEntries_foldl (row : List Region) (st : List Region)
    (tr : List (Nat × Nat)) :
    row.foldl
      (fun acc r =>
        if r.IsAccessible && r.IsUnknown then
          ({ r with discovered := true } :: acc.1, acc.2 ++ [(r.y, r.x)])
        else acc)
      (st, tr) =
    (((row.filter fun r => r.IsAccessible && r.IsUnknown).map
        (fun r => { r with discovered := true })).reverse ++ st,
      tr ++ (row.filter fun r => r.IsAccessible && r.IsUnknown).map Region.pos) := by
  induction row generalizing st tr with
  | nil => simp
  | cons r t ih =>
    by_cases hg : (r.IsAccessible && r.IsUnknown) = true
    · rw [List.foldl_cons, if_pos hg, ih, List.filter_cons, if_pos hg,
        List.map_cons, List.map_cons, List.reverse_cons, Prod.mk.injEq]
      exact ⟨by simp, by simp [Region.pos]⟩
    · rw [List.foldl_cons, if_neg hg, ih, List.filter_cons, if_neg hg]

theorem seedEntries_eq (row : List Region) :
    seedEntries row =
      (((row.filter fun r => r.IsAccessible && r.IsUnknown).map
          (fun r => { r with discovered := true })).reverse,
        (row.filter fun r => r.IsAccessible && r.IsUnknown).map Region.pos) := by
  unfold seedEntries
  rw [seedEntries_foldl]
  simp

/-  The freshly built grid. -/

theorem mkGrid_length (n : Nat) (f : Nat → Nat → Bool) : (mkGrid n f).length = n := by
  simp [mkGrid]

theorem mkGrid_getD_row {n y : Nat} (f : Nat → Nat → Bool) (hy : y < n) :
    (mkGrid n f).getD y [] = (List.range n).map fun x => ⟨y, x, f y x, false⟩ := by
  unfold mkGrid
  rw [List.getD_eq_getElem?_getD, List.getElem?_map, List.getElem?_range hy]
  rfl

theorem mkGrid_row_length {n y : Nat} (f : Nat → Nat → Bool) (hy : y < n) :
    ((mkGrid n f).getD y []).length = n := by
  rw [mkGrid_getD_row f hy]
  simp

theorem getCell_mkGrid {n y x : Nat} (f : Nat → Nat → Bool) (hy : y < n)
    (hx : x < n) : getCell (mkGrid n f) y x = ⟨y, x, f y x, false⟩ := by
  unfold getCell
  rw [mkGrid_getD_row f hy, List.getD_eq_getElem?_getD, List.getElem?_map,
    List.getElem?_range hx]
  rfl

theorem mkGrid_row0 (n : Nat) (f : Nat → Nat → Bool) :
    (mkGrid n f).getD 0 [] = (List.range n).map fun x => ⟨0, x, f 0 x, false⟩ := by
  cases n with
  | zero => rfl
  | succ m => exact mkGrid_getD_row f (Nat.succ_pos m)

/-  The invariant holds right after seeding. -/

theorem initState_coreInv (n : Nat) (modeA : Bool) (f : Nat → Nat → Bool) :
    CoreInv (initState n modeA (mkGrid n f)) := by
  refine ⟨?_, ?_, ?_, ?_, List.nodup_nil, ?_, ?_, ?_, ?_⟩
  · intro y x hy hx
    rw [show (initState n modeA (mkGrid n f)).cave = mkGrid n f from rfl] at *
    rw [mkGrid_length] at hy
    rw [mkGrid_row_length f hy] at hx
    rw [getCell_mkGrid f hy hx]
    exact ⟨rfl, rfl⟩
  · intro c hc
    right
    have hc2 : c ∈ ((seedEntries ((mkGrid n f).getD 0 [])).2 :
        List (Nat × Nat)) ++ ([] : List (Nat × Nat)) := hc
    rw [List.append_nil, seedEntries_eq] at hc2
    rw [show (initState n modeA (mkGrid n f)).stack
        = (seedEntries ((mkGrid n f).getD 0 [])).1 from rfl, seedEntries_eq]
    rcases List.mem_map.mp hc2 with ⟨r, hr, rfl⟩
    refine List.mem_map.mpr ⟨{ r with discovered := true }, ?_, rfl⟩
    rw [List.mem_reverse]
    exact List.mem_map.mpr ⟨r, hr, rfl⟩
  · intro y x hy hx hd
    rw [show (initState n modeA (mkGrid n f)).cave = mkGrid n f from rfl] at *
    rw [mkGrid_length] at hy
    rw [mkGrid_row_length f hy] at hx
    rw [getCell_mkGrid f hy hx] at hd
    exact absurd hd (by simp)
  · intro c hc
    exact absurd hc (List.not_mem_nil c)
  · intro c hc
    exact absurd hc (List.not_mem_nil c)
  · intro _ c hc
    exact absurd hc (List.not_mem_nil c)
  · intro c hc
    exact absurd hc (List.not_mem_nil c)
  · intro hd
    exact Bool.noConfusion hd

theorem initState_popJ (n : Nat) (modeA : Bool) (cave : Cave) :
    PopJ (initState n modeA cave) := by
  intro c hc
  exact absurd hc (List.not_mem_nil c)

/-  End-state facts about a finished traversal. -/

theorem attempt_inv (n : Nat) (modeA : Bool) (f : Nat → Nat → Bool) :
    CoreInv (attemptCaveTraverse n modeA (mkGrid n f)) ∧
      PopJ (attemptCaveTraverse n modeA (mkGrid n f)) :=
  loop_inv _ _ (initState_coreInv n modeA f) (initState_popJ n modeA _)

theorem attempt_loopRel (n : Nat) (modeA : Bool) (cave : Cave) :
    LoopRel (initState n modeA cave) (attemptCaveTraverse n modeA cave) :=
  loop_loopRel _ _

theorem attempt_terminal (n : Nat) (modeA : Bool) (cave : Cave) :
    (attemptCaveTraverse n modeA cave).done = true ∨
      (attemptCaveTraverse n modeA cave).stack = [] :=
  loop_terminal _ _ (Nat.lt_succ_self _)

/-- In visualization mode the traversal always exhausts the stack. -/
theorem attempt_modeA_drains (n : Nat) (cave : Cave) :
    (attemptCaveTraverse n true cave).stack = [] := by
  have hdone : (attemptCaveTraverse n true cave).done = false :=
    loop_done_modeA _ _ rfl
  rcases attempt_terminal n true cave with hd | hs
  · rw [hdone] at hd
    exact Bool.noConfusion hd
  · exact hs

/-  Discovery closure for a drained traversal of the fully open grid,
stated over an abstract final state. -/

theorem drained_open_all_discovered (n : Nat) (t : TState)
    (hcore : CoreInv t) (hJ : PopJ t) (hn_eq : t.n = n)
    (hlen : t.cave.length = n)
    (hrowlen : ∀ y, y < n → (t.cave.getD y []).length = n)
    (hacc : ∀ y, y < n → ∀ x, x < n → (getCell t.cave y x).IsAccessible = true)
    (hseedpop : ∀ x, x < n → (0, x) ∈ t.popTrace)
    (hpushpop : ∀ c ∈ t.pushTrace, c ∈ t.popTrace)
    (hn : 2 ≤ n) :
    ∀ y, y < n → ∀ x, x < n → (getCell t.cave y x).discovered = true := by
  have hJ' : ∀ c ∈ t.popTrace, NbrsDiscovered n t.cave c := by
    intro c hc
    have := hJ c hc
    rwa [hn_eq] at this
  have hdiscPush : ∀ y, y < n → ∀ x, x < n →
      (getCell t.cave y x).discovered = true → (y, x) ∈ t.pushTrace := by
    intro y hy x hx hd
    exact hcore.discPush y x (by rw [hlen]; exact hy)
      (by rw [hrowlen y hy]; exact hx) hd
  have R1 : ∀ x, x < n → (getCell t.cave 1 x).discovered = true := by
    intro x hx
    have hdi : DiscIfAcc t.cave (1, x) :=
      (hJ' (0, x) (hseedpop x hx)).2.2.2 (by omega)
    exact hdi (hacc 1 (by omega) x hx)
  have Rstep : ∀ y x, y + 1 < n → x < n →
      (getCell t.cave y x).discovered = true →
      (getCell t.cave (y + 1) x).discovered = true := by
    intro y x hy1 hx hd
    have hcpop := hpushpop _ (hdiscPush y (by omega) x hx hd)
    have hdi : DiscIfAcc t.cave (y + 1, x) := (hJ' (y, x) hcpop).2.2.2 hy1
    exact hdi (hacc (y + 1) hy1 x hx)
  have R0 : ∀ x, x < n → (getCell t.cave 0 x).discovered = true := by
    intro x hx
    have hcpop := hpushpop _ (hdiscPush 1 (by omega) x hx (R1 x hx))
    have hdi : DiscIfAcc t.cave (0, x) := (hJ' (1, x) hcpop).1 (Nat.le_refl 1)
    exact hdi (hacc 0 (by omega) x hx)
  have RowAux : ∀ y, 1 ≤ y → y < n → ∀ x, x < n →
      (getCell t.cave y x).discovered = true := by
    intro y
    induction y with
    | zero => intro h; exact absurd h (by omega)
    | succ y ihy =>
      intro _ hlt x hx
      rcases Nat.eq_zero_or_pos y with h0 | h1
      · subst h0
        exact R1 x hx
      · exact Rstep y x hlt hx (ihy h1 (by omega) x hx)
  intro y hy x hx
  rcases Nat.eq_zero_or_pos y with h0 | h1
  · subst h0
    exact R0 x hx
  · exact RowAux y h1 hy x hx

/-  The concrete facts those hypotheses ask for, for a finished traversal
of the fully open grid. -/

theorem attempt_open_base (n : Nat) (modeA : Bool) :
    (attemptCaveTraverse n modeA (openGrid n)).n = n ∧
    (attemptCaveTraverse n modeA (openGrid n)).cave.length = n ∧
    (∀ y, y < n →
      ((attemptCaveTraverse n modeA (openGrid n)).cave.getD y []).length = n) ∧
    (∀ y, y < n → ∀ x, x < n →
      (getCell (attemptCaveTraverse n modeA (openGrid n)).cave y x).IsAccessible
        = true) ∧
    (∀ x, x < n → (0, x) ∈ (attemptCaveTraverse n modeA (openGrid n)).seedTrace) := by
  have hrel : LoopRel (initState n modeA (openGrid n))
      (attemptCaveTraverse n modeA (openGrid n)) := loop_loopRel _ _
  refine ⟨hrel.n_eq, ?_, ?_, ?_, ?_⟩
  · rw [hrel.cave_len]
    exact mkGrid_length n _
  · intro y hy
    rw [hrel.row_len y]
    exact mkGrid_row_length _ hy
  · intro y hy x hx
    unfold Region.IsAccessible
    rw [hrel.obst y x]
    show (!(getCell (mkGrid n (fun _ _ => false)) y x).obstructed) = true
    rw [getCell_mkGrid _ hy hx]
    rfl
  · intro x hx
    rw [hrel.seed_eq]
    show (0, x) ∈ (seedEntries ((openGrid n).getD 0 [])).2
    rw [seedEntries_eq]
    refine List.mem_map.mpr ⟨⟨0, x, false, false⟩, ?_, rfl⟩
    rw [List.mem_filter]
    constructor
    · rw [show (openGrid n).getD 0 []
          = (List.range n).map fun x => ⟨0, x, false, false⟩ from mkGrid_row0 n _]
      exact List.mem_map.mpr ⟨x, List.mem_range.mpr hx, rfl⟩
    · rfl

/-- After a drained traversal of the fully open grid, some bottom-row
position was popped. -/
theorem attempt_open_drained_bottom (n : Nat) (modeA : Bool) (hn : 1 ≤ n)
    (hdrain : (attemptCaveTraverse n modeA (openGrid n)).stack = []) :
    ∃ c ∈ (attemptCaveTraverse n modeA (openGrid n)).popTrace, c.1 + 1 = n := by
  obtain ⟨hcore, hJ⟩ : CoreInv (attemptCaveTraverse n modeA (openGrid n)) ∧
      PopJ (attemptCaveTraverse n modeA (openGrid n)) :=
    attempt_inv n modeA (fun _ _ => false)
  obtain ⟨hn_eq, hlen, hrowlen, hacc, hseed⟩ := attempt_open_base n modeA
  have hpop : ∀ c, c ∈ (attemptCaveTraverse n modeA (openGrid n)).seedTrace ++
      (attemptCaveTraverse n modeA (openGrid n)).pushTrace →
      c ∈ (attemptCaveTraverse n modeA (openGrid n)).popTrace := by
    intro c hc
    rcases hcore.pushPop c hc with h | h
    · exact h
    · rw [hdrain] at h
      simp at h
  rcases Nat.lt_or_ge n 2 with hn2 | hn2
  · have hn1 : n = 1 := by omega
    subst hn1
    exact ⟨(0, 0), hpop _ (List.mem_append_left _ (hseed 0 (by omega))), rfl⟩
  · have hdisc := drained_open_all_discovered n _ hcore hJ hn_eq hlen hrowlen hacc
      (fun x hx => hpop _ (List.mem_append_left _ (hseed x hx)))
      (fun c hc => hpop _ (List.mem_append_right _ hc)) hn2
    have hd : (getCell (attemptCaveTraverse n modeA (openGrid n)).cave
        (n - 1) 0).discovered = true := hdisc (n - 1) (by omega) 0 (by omega)
    have hmem : (n - 1, 0) ∈ (attemptCaveTraverse n modeA (openGrid n)).pushTrace :=
      hcore.discPush (n - 1) 0 (by rw [hlen]; omega)
        (by rw [hrowlen (n - 1) (by omega)]; omega) hd
    exact ⟨(n - 1, 0), hpop _ (List.mem_append_right _ hmem), by omega⟩

theorem attempt_grid_dims (n : Nat) (modeA : Bool) (f : Nat → Nat → Bool) :
    (attemptCaveTraverse n modeA (mkGrid n f)).n = n ∧
    (attemptCaveTraverse n modeA (mkGrid n f)).cave.length = n ∧
    ∀ y, y < n →
      ((attemptCaveTraverse n modeA (mkGrid n f)).cave.getD y []).length = n := by
  have hrel : LoopRel (initState n modeA (mkGrid n f))
      (attemptCaveTraverse n modeA (mkGrid n f)) := loop_loopRel _ _
  refine ⟨hrel.n_eq, ?_, ?_⟩
  · rw [hrel.cave_len]
    exact mkGrid_length n _
  · intro y hy
    rw [hrel.row_len y]
    exact mkGrid_row_length _ hy

/-- Claim C9: within one traversal, a cell's `obstructed` flag never
changes and its `discovered` flag only ever goes from false to true. -/
theorem traversal_flags_invariant (n : Nat) (modeA : Bool) (cave : Cave)
    (y x : Nat) :
    (getCell (attemptCaveTraverse n modeA cave).cave y x).obstructed
      = (getCell cave y x).obstructed ∧
    ((getCell cave y x).discovered = true →
      (getCell (attemptCaveTraverse n modeA cave).cave y x).discovered = true) := by
  have hrel := attempt_loopRel n modeA cave
  exact ⟨hrel.obst y x, hrel.disc_mono y x⟩

theorem traversal_flags_invariant_witness :
    (getCell (attemptCaveTraverse 1 true [[⟨0, 0, false, true⟩]]).cave 0 0).discovered
      = true :=
  (traversal_flags_invariant 1 true [[⟨0, 0, false, true⟩]] 0 0).2 (by decide)

/-- Claim C8: the traversal terminates — it ends in the break state
(`done`, only outside visualization mode) or with the stack empty, and the
total number of pushes (seeds plus loop pushes) is bounded by `n + n²`. -/
theorem traversal_terminates (n : Nat) (modeA : Bool) (f : Nat → Nat → Bool) :
    ((attemptCaveTraverse n modeA (mkGrid n f)).done = true ∨
      (attemptCaveTraverse n modeA (mkGrid n f)).stack = []) ∧
    ((attemptCaveTraverse n modeA (mkGrid n f)).done = true → modeA = false) ∧
    ((attemptCaveTraverse n modeA (mkGrid n f)).seedTrace ++
        (attemptCaveTraverse n modeA (mkGrid n f)).pushTrace).length ≤ n + n * n := by
  obtain ⟨hcore, _⟩ := attempt_inv n modeA f
  obtain ⟨_, hlen, hrowlen⟩ := attempt_grid_dims n modeA f
  refine ⟨attempt_terminal n modeA _, ?_, ?_⟩
  · intro hd
    cases hmA : modeA with
    | false => rfl
    | true =>
      subst hmA
      have : (attemptCaveTraverse n true (mkGrid n f)).done = false :=
        loop_done_modeA _ _ rfl
      rw [this] at hd
      exact Bool.noConfusion hd
  · rw [List.length_append]
    have hseedlen : (attemptCaveTraverse n modeA (mkGrid n f)).seedTrace.length ≤ n := by
      rw [(attempt_loopRel n modeA (mkGrid n f)).seed_eq]
      show ((seedEntries ((mkGrid n f).getD 0 [])).2).length ≤ n
      rw [seedEntries_eq]
      calc ((((mkGrid n f).getD 0 []).filter
                fun r => r.IsAccessible && r.IsUnknown).map Region.pos).length
          = (((mkGrid n f).getD 0 []).filter
              fun r => r.IsAccessible && r.IsUnknown).length := List.length_map _ _
        _ ≤ ((mkGrid n f).getD 0 []).length := List.length_filter_le _ _
        _ = n := by rw [mkGrid_row0]; simp
    have hpushlen : (attemptCaveTraverse n modeA (mkGrid n f)).pushTrace.length
        ≤ n * n := by
      have hsub : (attemptCaveTraverse n modeA (mkGrid n f)).pushTrace
          ⊆ List.range n ×ˢ List.range n := by
        intro c hc
        obtain ⟨a, b⟩ := c
        have hb := hcore.pushBounds (a, b) hc
        rw [hlen] at hb
        have hb2 := hb.2
        rw [hrowlen a hb.1] at hb2
        exact List.mem_product.mpr
          ⟨List.mem_range.mpr hb.1, List.mem_range.mpr hb2⟩
      have hlenprod : (List.range n ×ˢ List.range n).length = n * n := by
        simp [List.length_product]
      have hle := (List.subperm_of_subset hcore.pushNodup hsub).length_le
      exact hlenprod ▸ hle
    omega

theorem traversal_terminates_witness : (false : Bool) = false :=
  (traversal_terminates 1 false (fun _ _ => false)).2.1 (by decide)

/-- Claim C4: in visualization mode the traversal always continues to
stack exhaustion; in every other mode it stops at the first bottom-row
region — with exactly one success, that region still on top of the stack,
and no bottom-row region ever popped — and, if no bottom-row region is
ever reached, it drains the stack with zero successes. -/
theorem traversal_stop_semantics (n : Nat) (f : Nat → Nat → Bool) :
    (attemptCaveTraverse n true (mkGrid n f)).stack = [] ∧
    (attemptCaveTraverse n false (mkGrid n f)).successes ≤ 1 ∧
    ((attemptCaveTraverse n false (mkGrid n f)).done = true →
      (attemptCaveTraverse n false (mkGrid n f)).successes = 1 ∧
      ∃ r rest, (attemptCaveTraverse n false (mkGrid n f)).stack = r :: rest ∧
        r.y + 1 = n ∧
        ∀ c ∈ (attemptCaveTraverse n false (mkGrid n f)).popTrace, c.1 + 1 ≠ n) ∧
    ((attemptCaveTraverse n false (mkGrid n f)).done = false →
      (attemptCaveTraverse n false (mkGrid n f)).stack = [] ∧
      (attemptCaveTraverse n false (mkGrid n f)).successes = 0) := by
  obtain ⟨hcore, _⟩ := attempt_inv n false f
  obtain ⟨hn_eq, _, _⟩ := attempt_grid_dims n false f
  obtain ⟨hsd, hsnd⟩ := loop_modeB_succ
    (stateMeasure (initState n false (mkGrid n f)) + 1)
    (initState n false (mkGrid n f)) rfl rfl
  have hsd' : (attemptCaveTraverse n false (mkGrid n f)).done = true →
      (attemptCaveTraverse n false (mkGrid n f)).successes = 1 := hsd
  have hsnd' : (attemptCaveTraverse n false (mkGrid n f)).done = false →
      (attemptCaveTraverse n false (mkGrid n f)).successes = 0 := hsnd
  refine ⟨attempt_modeA_drains n _, ?_, ?_, ?_⟩
  · by_cases hd : (attemptCaveTraverse n false (mkGrid n f)).done = true
    · rw [hsd' hd]
    · rw [hsnd' (Bool.eq_false_iff.mpr hd)]
      exact Nat.zero_le 1
  · intro hd
    refine ⟨hsd' hd, ?_⟩
    have hb' : ∃ r rest',
        (attemptCaveTraverse n false (mkGrid n f)).stack = r :: rest' ∧
          r.y + 1 = (attemptCaveTraverse n false (mkGrid n f)).n :=
      loop_modeB_bottom _ _ rfl rfl hd
    obtain ⟨r, rest, hstack, hry⟩ := hb'
    refine ⟨r, rest, hstack, by rw [← hn_eq]; exact hry, ?_⟩
    intro c hc
    rw [← hn_eq]
    exact hcore.popBottomFree (attempt_loopRel n false (mkGrid n f)).modeA_eq c hc
  · intro hd
    rcases attempt_terminal n false (mkGrid n f) with h | h
    · rw [hd] at h
      exact absurd h (by simp)
    · exact ⟨h, hsnd' hd⟩

theorem traversal_stop_semantics_witness :
    (attemptCaveTraverse 2 true (openGrid 2)).stack = [] ∧
      (attemptCaveTraverse 2 false (openGrid 2)).successes = 1 :=
  ⟨(traversal_stop_semantics 2 (fun _ _ => false)).1,
    ((traversal_stop_semantics 2 (fun _ _ => false)).2.2.1 (by decide)).1⟩

/-- Claim C6: when the entire top row is obstructed the traversal does
nothing at all: no successes ("not found"), the grid is returned exactly
as built (no cell discovered), and the loop exits at once with an empty
stack and no error. -/
theorem blocked_top_row_yields_nothing (n : Nat) (modeA : Bool)
    (f : Nat → Nat → Bool) (hrow : ∀ x, x < n → f 0 x = true) :
    (attemptCaveTraverse n modeA (mkGrid n f)).successes = 0 ∧
    (attemptCaveTraverse n modeA (mkGrid n f)).cave = mkGrid n f ∧
    (attemptCaveTraverse n modeA (mkGrid n f)).stack = [] ∧
    (attemptCaveTraverse n modeA (mkGrid n f)).done = false ∧
    ∀ y, y < n → ∀ x, x < n →
      (getCell (attemptCaveTraverse n modeA (mkGrid n f)).cave y x).discovered
        = false := by
  have hseed : seedEntries ((mkGrid n f).getD 0 []) = ([], []) := by
    rw [seedEntries_eq]
    have hfil : ((mkGrid n f).getD 0 []).filter
        (fun r => r.IsAccessible && r.IsUnknown) = [] := by
      rw [List.filter_eq_nil]
      intro r hr
      rw [mkGrid_row0] at hr
      rcases List.mem_map.mp hr with ⟨x, hx, rfl⟩
      simp [Region.IsAccessible, hrow x (List.mem_range.mp hx)]
    rw [hfil]
    rfl
  have hstack0 : (initState n modeA (mkGrid n f)).stack = [] := by
    show (seedEntries ((mkGrid n f).getD 0 [])).1 = []
    rw [hseed]
  have hid : attemptCaveTraverse n modeA (mkGrid n f)
      = initState n modeA (mkGrid n f) := loop_succ_nil hstack0
  rw [hid]
  refine ⟨rfl, rfl, hstack0, rfl, ?_⟩
  intro y hy x hx
  show (getCell (mkGrid n f) y x).discovered = false
  rw [getCell_mkGrid f hy hx]

theorem blocked_top_row_witness :
    (attemptCaveTraverse 2 true (mkGrid 2 (fun y _ => y == 0))).successes = 0 :=
  (blocked_top_row_yields_nothing 2 true (fun y _ => y == 0) (by decide)).1

/-- Claim C2 (amended): on the fully open `n × n` grid, visualization-mode
traversal reports "found" for every `n ≥ 1`; every cell ends up discovered
when `n ≥ 2`, while at `n = 1` the single cell remains undiscovered (see
the counterexample) because entry seeding marks only copies. -/
theorem open_grid_found_and_discovered (n : Nat) (hn : 1 ≤ n) :
    0 < (attemptCaveTraverse n true (openGrid n)).successes ∧
    (2 ≤ n → ∀ y, y < n → ∀ x, x < n →
      (getCell (attemptCaveTraverse n true (openGrid n)).cave y x).discovered
        = true) := by
  obtain ⟨hcore, hJ⟩ : CoreInv (attemptCaveTraverse n true (openGrid n)) ∧
      PopJ (attemptCaveTraverse n true (openGrid n)) :=
    attempt_inv n true (fun _ _ => false)
  obtain ⟨hn_eq, hlen, hrowlen, hacc, hseed⟩ := attempt_open_base n true
  have hdrain := attempt_modeA_drains n (openGrid n)
  constructor
  · obtain ⟨c, hc, hb⟩ := attempt_open_drained_bottom n true hn hdrain
    exact hcore.bottomSucc c hc (by rw [hn_eq]; exact hb)
  · intro hn2
    have hpop : ∀ c, c ∈ (attemptCaveTraverse n true (openGrid n)).seedTrace ++
        (attemptCaveTraverse n true (openGrid n)).pushTrace →
        c ∈ (attemptCaveTraverse n true (openGrid n)).popTrace := by
      intro c hc
      rcases hcore.pushPop c hc with h | h
      · exact h
      · rw [hdrain] at h
        simp at h
    exact drained_open_all_discovered n _ hcore hJ hn_eq hlen hrowlen hacc
      (fun x hx => hpop _ (List.mem_append_left _ (hseed x hx)))
      (fun c hc => hpop _ (List.mem_append_right _ hc)) hn2

theorem open_grid_found_witness :
    0 < (attemptCaveTraverse 3 true (openGrid 3)).successes ∧
      (getCell (attemptCaveTraverse 3 true (openGrid 3)).cave 0 2).discovered
        = true :=
  ⟨(open_grid_found_and_discovered 3 (by decide)).1,
    (open_grid_found_and_discovered 3 (by decide)).2 (by decide) 0 (by decide)
      2 (by decide)⟩

/-- Claim C10: entry seeding mutates no cell of the canonical grid (the
state after seeding holds the input grid unchanged); consequently a
top-row cell's `discovered` flag ends up true only if the cell was pushed
by the in-loop `ScoutRegion` — that is, scouted as the neighbour of some
popped region; and on the open 1 × 1 grid visualization mode reports
"found" while the single cell is displayed as never discovered. -/
theorem entry_seeding_frame_effect (n : Nat) (modeA : Bool) :
    (∀ cave : Cave, (initState n modeA cave).cave = cave) ∧
    (∀ f : Nat → Nat → Bool, ∀ x, x < n →
      (getCell (attemptCaveTraverse n modeA (mkGrid n f)).cave 0 x).discovered
        = true →
      (0, x) ∈ (attemptCaveTraverse n modeA (mkGrid n f)).pushTrace) ∧
    (0 < (attemptCaveTraverse 1 true (openGrid 1)).successes ∧
      (getCell (attemptCaveTraverse 1 true (openGrid 1)).cave 0 0).discovered
        = false) := by
  refine ⟨fun _ => rfl, ?_, by decide, by decide⟩
  intro f x hx hd
  obtain ⟨hcore, _⟩ := attempt_inv n modeA f
  obtain ⟨_, hlen, hrowlen⟩ := attempt_grid_dims n modeA f
  exact hcore.discPush 0 x (by rw [hlen]; omega)
    (by rw [hrowlen 0 (by omega)]; exact hx) hd

theorem entry_seeding_frame_effect_witness :
    ((0, 1) : Nat × Nat) ∈ (attemptCaveTraverse 2 true (openGrid 2)).pushTrace :=
  (entry_seeding_frame_effect 2 true).2.1 (fun _ _ => false) 1 (by decide) (by decide)

theorem count_le_one_of_nodup {α : Type} [BEq α] [LawfulBEq α] :
    ∀ {l : List α}, l.Nodup → ∀ a : α, l.count a ≤ 1
  | [], _, a => by simp
  | b :: t, h, a => by
    rw [List.count_cons]
    rcases List.nodup_cons.mp h with ⟨hb, ht⟩
    by_cases hba : (b == a) = true
    · have hEq : b = a := eq_of_beq hba
      subst hEq
      rw [List.count_eq_zero.mpr hb]
      simp
    · have := count_le_one_of_nodup ht a
      rw [if_neg hba]
      omega

/-- Claim C1 (amended): within one traversal of a freshly built grid, the
in-loop `ScoutRegion` pushes each cell at most once (eager marking on the
canonical grid), and entry seeding pushes each row-0 cell at most once
more (over an unmarked copy); hence every cell is pushed at most twice in
total, and cells outside row 0 at most once. -/
theorem push_count_bound (n : Nat) (modeA : Bool) (f : Nat → Nat → Bool)
    (c : Nat × Nat) :
    ((attemptCaveTraverse n modeA (mkGrid n f)).seedTrace ++
        (attemptCaveTraverse n modeA (mkGrid n f)).pushTrace).count c ≤ 2 ∧
    (c.1 ≠ 0 →
      ((attemptCaveTraverse n modeA (mkGrid n f)).seedTrace ++
          (attemptCaveTraverse n modeA (mkGrid n f)).pushTrace).count c ≤ 1) ∧
    (attemptCaveTraverse n modeA (mkGrid n f)).pushTrace.count c ≤ 1 ∧
    (attemptCaveTraverse n modeA (mkGrid n f)).seedTrace.count c ≤ 1 := by
  obtain ⟨hcore, _⟩ := attempt_inv n modeA f
  have hseedTr : (attemptCaveTraverse n modeA (mkGrid n f)).seedTrace
      = (((mkGrid n f).getD 0 []).filter
          (fun r => r.IsAccessible && r.IsUnknown)).map Region.pos := by
    rw [(attempt_loopRel n modeA (mkGrid n f)).seed_eq]
    show (seedEntries ((mkGrid n f).getD 0 [])).2 = _
    rw [seedEntries_eq]
  have hrow0pos : ((mkGrid n f).getD 0 []).map Region.pos
      = (List.range n).map fun x => (0, x) := by
    rw [mkGrid_row0, List.map_map]
    rfl
  have hseedNodup : (attemptCaveTraverse n modeA (mkGrid n f)).seedTrace.Nodup := by
    rw [hseedTr]
    have hsub : List.Sublist
        ((((mkGrid n f).getD 0 []).filter
            (fun r => r.IsAccessible && r.IsUnknown)).map Region.pos)
        (((mkGrid n f).getD 0 []).map Region.pos) :=
      (List.filter_sublist _).map Region.pos
    refine hsub.nodup ?_
    rw [hrow0pos]
    exact (List.nodup_range n).map
      (fun a b hab => by simpa using congrArg Prod.snd hab)
  have hseedRow0 : ∀ d ∈ (attemptCaveTraverse n modeA (mkGrid n f)).seedTrace,
      (d : Nat × Nat).1 = 0 := by
    intro d hd
    rw [hseedTr] at hd
    have : d ∈ ((mkGrid n f).getD 0 []).map Region.pos :=
      ((List.filter_sublist _).map Region.pos).subset hd
    rw [hrow0pos] at this
    rcases List.mem_map.mp this with ⟨x, _, rfl⟩
    rfl
  have hc1 : (attemptCaveTraverse n modeA (mkGrid n f)).pushTrace.count c ≤ 1 :=
    count_le_one_of_nodup hcore.pushNodup c
  have hc2 : (attemptCaveTraverse n modeA (mkGrid n f)).seedTrace.count c ≤ 1 :=
    count_le_one_of_nodup hseedNodup c
  refine ⟨?_, ?_, hc1, hc2⟩
  · rw [List.count_append]
    omega
  · intro hc0
    rw [List.count_append]
    have : (attemptCaveTraverse n modeA (mkGrid n f)).seedTrace.count c = 0 := by
      rw [List.count_eq_zero]
      intro hmem
      exact hc0 (hseedRow0 c hmem)
    omega

theorem push_count_bound_witness :
    ((attemptCaveTraverse 2 true (mkGrid 2 (fun _ _ => false))).seedTrace ++
        (attemptCaveTraverse 2 true (mkGrid 2 (fun _ _ => false))).pushTrace).count
      ((1, 1) : Nat × Nat) ≤ 1 :=
  (push_count_bound 2 true (fun _ _ => false) (1, 1)).2.1 (by decide)

/-  The sampling loop (mode B) and the accessibility-1 grids. -/

theorem foldl_add_sum {α : Type} (f : α → Nat) (l : List α) :
    ∀ a : Nat, l.foldl (fun acc x => acc + f x) a = a + (l.map f).sum := by
  induction l with
  | nil => intro a; simp
  | cons x t ih =>
    intro a
    rw [List.foldl_cons, ih (a + f x), List.map_cons, List.sum_cons]
    omega

theorem sum_le_length : ∀ {l : List Nat}, (∀ x ∈ l, x ≤ 1) → l.sum ≤ l.length := by
  intro l
  induction l with
  | nil => intro _; simp
  | cons x t ih =>
    intro h
    rw [List.sum_cons, List.length_cons]
    have hx := h x (List.mem_cons_self _ _)
    have ht := ih fun y hy => h y (List.mem_cons_of_mem _ hy)
    omega

theorem trialSuccesses_le_one (n : Nat) (p : Dy) (u : Nat → ℚ) :
    trialSuccesses n p u ≤ 1 := by
  obtain ⟨hsd, hsnd⟩ := loop_modeB_succ
    (stateMeasure (initState n false (generateMap n p u)) + 1)
    (initState n false (generateMap n p u)) rfl rfl
  have hsd' : (attemptCaveTraverse n false (generateMap n p u)).done = true →
      (attemptCaveTraverse n false (generateMap n p u)).successes = 1 := hsd
  have hsnd' : (attemptCaveTraverse n false (generateMap n p u)).done = false →
      (attemptCaveTraverse n false (generateMap n p u)).successes = 0 := hsnd
  unfold trialSuccesses
  by_cases hd : (attemptCaveTraverse n false (generateMap n p u)).done = true
  · rw [hsd' hd]
  · rw [hsnd' (Bool.eq_false_iff.mpr hd)]
    exact Nat.zero_le 1

/-- Claim C5: the Sampling Controller performs exactly `S` trials — its
counter is the sum over the `S` samples of the per-trial successes, each
of which is at most 1 — and reports `successes / S`, a value in `[0, 1]`. -/
theorem sampling_controller_spec (n : Nat) (p : Dy) (S : Nat) (u : Nat → ℚ)
    (hS : 1 ≤ S) :
    (∀ sample : Nat, trialSuccesses n p (fun j => u (sample * (n * n) + j)) ≤ 1) ∧
    (runModeB n p S u).1 = ((List.range S).map
      (fun sample => trialSuccesses n p (fun j => u (sample * (n * n) + j)))).sum ∧
    (runModeB n p S u).1 ≤ S ∧
    (runModeB n p S u).2 = ((runModeB n p S u).1 : ℚ) / (S : ℚ) ∧
    0 ≤ (runModeB n p S u).2 ∧ (runModeB n p S u).2 ≤ 1 := by
  have htrial : ∀ sample : Nat,
      trialSuccesses n p (fun j => u (sample * (n * n) + j)) ≤ 1 :=
    fun sample => trialSuccesses_le_one n p _
  have hfold : (runModeB n p S u).1 = ((List.range S).map
      (fun sample => trialSuccesses n p (fun j => u (sample * (n * n) + j)))).sum := by
    show (List.range S).foldl _ 0 = _
    rw [foldl_add_sum]
    omega
  have hle : (runModeB n p S u).1 ≤ S := by
    rw [hfold]
    have hbound : ∀ x ∈ (List.range S).map
        (fun sample => trialSuccesses n p (fun j => u (sample * (n * n) + j))),
        x ≤ 1 := by
      intro x hx
      rcases List.mem_map.mp hx with ⟨sample, _, rfl⟩
      exact htrial sample
    have := sum_le_length hbound
    rwa [List.length_map, List.length_range] at this
  have hratio : (runModeB n p S u).2 = ((runModeB n p S u).1 : ℚ) / (S : ℚ) := by
    show mkRat ((runModeB n p S u).1 : ℤ) S = _
    rw [Rat.mkRat_eq_div, Int.cast_natCast]
  have h0 : 0 ≤ (runModeB n p S u).2 := by
    rw [hratio]
    positivity
  have hS0 : (0 : ℚ) < (S : ℚ) := by exact_mod_cast Nat.lt_of_lt_of_le Nat.zero_lt_one hS
  have h1 : (runModeB n p S u).2 ≤ 1 := by
    rw [hratio, div_le_one hS0]
    exact_mod_cast hle
  exact ⟨htrial, hfold, hle, hratio, h0, h1⟩

theorem sampling_controller_witness : (runModeB 1 ⟨1, 0⟩ 1 (fun _ => 0)).1 ≤ 1 :=
  (sampling_controller_spec 1 ⟨1, 0⟩ 1 (fun _ => 0) (by decide)).2.2.1

/-  Accessibility exactly 1: the generated grid is fully open and every
trial succeeds. -/

theorem rne53_zero (E : Nat) : rne53 0 E = ⟨0, E⟩ := rfl

theorem dy_toRat_zero (E : Nat) : (⟨0, E⟩ : Dy).toRat = 0 := by
  unfold Dy.toRat
  exact Rat.zero_mkRat _

theorem dy_toRat_one {p : Dy} (hp : p.toRat = 1) : p.m = 2 ^ p.e := by
  unfold Dy.toRat at hp
  rw [Rat.mkRat_eq_div] at hp
  have h2 : ((2 ^ p.e : ℕ) : ℚ) ≠ 0 := by positivity
  rw [div_eq_one_iff_eq h2] at hp
  exact_mod_cast hp

theorem dyAdd_toRat_zero {a b : Dy}
    (h : a.m * 2 ^ (max a.e b.e - a.e) + b.m * 2 ^ (max a.e b.e - b.e) = 0) :
    (Dy.add a b).toRat = 0 := by
  unfold Dy.add
  rw [h, rne53_zero]
  exact dy_toRat_zero _

theorem dySub_one_toRat {p : Dy} (hp : p.toRat = 1) :
    (Dy.sub oneDy p).toRat = 0 := by
  have hm := dy_toRat_one hp
  unfold Dy.sub
  apply dyAdd_toRat_zero
  show (1 : ℤ) * 2 ^ (max 0 p.e - 0) + (-p.m) * 2 ^ (max 0 p.e - p.e) = 0
  rw [Nat.max_eq_right (Nat.zero_le p.e), Nat.sub_zero, Nat.sub_self, hm]
  ring

theorem generateMap_p1 (n : Nat) (p : Dy) (u : Nat → ℚ) (hp : p.toRat = 1)
    (hu : ∀ i, 0 ≤ u i) : generateMap n p u = openGrid n := by
  unfold generateMap openGrid
  apply congrArg (mkGrid n)
  funext y x
  rw [dySub_one_toRat hp]
  unfold bernouilli
  exact decide_eq_false (not_lt.mpr (hu _))

theorem attempt_open_modeB (n : Nat) (hn : 1 ≤ n) :
    (attemptCaveTraverse n false (openGrid n)).done = true ∧
    (attemptCaveTraverse n false (openGrid n)).successes = 1 := by
  obtain ⟨hcore, _⟩ : CoreInv (attemptCaveTraverse n false (openGrid n)) ∧
      PopJ (attemptCaveTraverse n false (openGrid n)) :=
    attempt_inv n false (fun _ _ => false)
  obtain ⟨hn_eq, _, _, _, _⟩ := attempt_open_base n false
  obtain ⟨hsd, hsnd⟩ := loop_modeB_succ
    (stateMeasure (initState n false (openGrid n)) + 1)
    (initState n false (openGrid n)) rfl rfl
  have hsd' : (attemptCaveTraverse n false (openGrid n)).done = true →
      (attemptCaveTraverse n false (openGrid n)).successes = 1 := hsd
  by_cases hd : (attemptCaveTraverse n false (openGrid n)).done = true
  · exact ⟨hd, hsd' hd⟩
  · exfalso
    rcases attempt_terminal n false (openGrid n) with h | hstack
    · exact hd h
    obtain ⟨c, hc, hb⟩ := attempt_open_drained_bottom n false hn hstack
    have hnb := hcore.popBottomFree
      (attempt_loopRel n false (openGrid n)).modeA_eq c hc
    rw [hn_eq] at hnb
    exact hnb hb

/-- Claim C7: at accessibility exactly 1 the Bernoulli trial (obstruction
probability 0) never obstructs a cell, so every generated grid is fully
open, every one of the `S` samples crosses, and the empirical crossing
probability is exactly 1, for every `n ≥ 1`. -/
theorem accessibility_one_always_crosses (n S : Nat) (p : Dy) (u : Nat → ℚ)
    (hn : 1 ≤ n) (hS : 1 ≤ S) (hp : p.toRat = 1) (hu : ∀ i, 0 ≤ u i) :
    (∀ v : Nat → ℚ, (∀ i, 0 ≤ v i) → generateMap n p v = openGrid n) ∧
    runModeB n p S u = (S, 1) := by
  refine ⟨fun v hv => generateMap_p1 n p v hp hv, ?_⟩
  have htrial : ∀ sample : Nat,
      trialSuccesses n p (fun j => u (sample * (n * n) + j)) = 1 := by
    intro sample
    unfold trialSuccesses
    rw [generateMap_p1 n p _ hp fun i => hu _]
    exact (attempt_open_modeB n hn).2
  have hsum : (runModeB n p S u).1 = S := by
    show (List.range S).foldl _ 0 = S
    rw [foldl_add_sum]
    simp [htrial]
  have hratio : (runModeB n p S u).2 = 1 := by
    show mkRat ((runModeB n p S u).1 : ℤ) S = 1
    rw [hsum, Rat.mkRat_eq_div]
    have hS0 : (S : ℚ) ≠ 0 := by
      have : (0 : ℚ) < (S : ℚ) := by
        exact_mod_cast Nat.lt_of_lt_of_le Nat.zero_lt_one hS
      exact ne_of_gt this
    push_cast
    exact div_self hS0
  exact Prod.ext_iff.mpr ⟨hsum, hratio⟩

theorem accessibility_one_witness : runModeB 1 ⟨1, 0⟩ 1 (fun _ => 0) = (1, 1) :=
  (accessibility_one_always_crosses 1 1 ⟨1, 0⟩ (fun _ => 0) (by decide) (by decide)
    (by decide) (fun _ => le_refl 0)).2
